import Mathlib

/-!
Verification of the linked/tree-structural core of the `dscollections` library:
binary search tree, trie, disjoint-set union, and the singly/doubly linked
lists.  Every definition is a shallow embedding of the corresponding Python
code (`src/dscollections/tree.py`, `advanced.py`, `linear.py`): pure tree
operations become structural recursion, dict-backed state becomes association
lists, and the pointer-mutating list code becomes explicit state passing over
an arena of nodes addressed by allocation order.
-/

namespace DSCollections

/-! ## Binary search tree (`tree.py`)

`_BSTNode` has `value`, `left`, `right`; a missing child is `None`, here the
`leaf` constructor. -/

inductive BSTNode (α : Type) where
  | leaf : BSTNode α
  | node : BSTNode α → α → BSTNode α → BSTNode α
deriving DecidableEq

namespace BSTNode

/-- Source `BinarySearchTree.insert`'s descent: go left when `value < current.value`,
right when `value > current.value`, stop on equality.  The boolean records
whether a new node was created (the Python code increments `_size` exactly
then). -/
def insertNode {α : Type} [LinearOrder α] : BSTNode α → α → BSTNode α × Bool
  | .leaf, v => (.node .leaf v .leaf, true)
  | .node l x r, v =>
    if v < x then
      let p := insertNode l v
      (.node p.1 x r, p.2)
    else if x < v then
      let p := insertNode r v
      (.node l x p.1, p.2)
    else
      (.node l x r, false)

/-- Source `BinarySearchTree.contains`: the same comparison walk, no mutation. -/
def containsNode {α : Type} [LinearOrder α] : BSTNode α → α → Bool
  | .leaf, _ => false
  | .node l x r, v =>
    if v < x then containsNode l v
    else if x < v then containsNode r v
    else true

/-- Source `in_order`: left, self, right. -/
def inOrder {α : Type} : BSTNode α → List α
  | .leaf => []
  | .node l x r => inOrder l ++ x :: inOrder r

/-- Source `pre_order`: self, left, right. -/
def preOrder {α : Type} : BSTNode α → List α
  | .leaf => []
  | .node l x r => x :: (preOrder l ++ preOrder r)

/-- Source `post_order`: left, right, self. -/
def postOrder {α : Type} : BSTNode α → List α
  | .leaf => []
  | .node l x r => postOrder l ++ postOrder r ++ [x]

end BSTNode

/-- Source `BinarySearchTree`: `_root` and `_size`. -/
structure BinarySearchTree (α : Type) where
  root : BSTNode α
  size : Nat
deriving DecidableEq

namespace BinarySearchTree

def empty {α : Type} : BinarySearchTree α := ⟨.leaf, 0⟩

/-- Source `BinarySearchTree.insert`: `_size` is incremented exactly when a new node
was attached. -/
def insert {α : Type} [LinearOrder α] (t : BinarySearchTree α) (v : α) :
    BinarySearchTree α :=
  let p := t.root.insertNode v
  ⟨p.1, if p.2 then t.size + 1 else t.size⟩

def contains {α : Type} [LinearOrder α] (t : BinarySearchTree α) (v : α) : Bool :=
  t.root.containsNode v

def in_order {α : Type} (t : BinarySearchTree α) : List α := t.root.inOrder

def pre_order {α : Type} (t : BinarySearchTree α) : List α := t.root.preOrder

def post_order {α : Type} (t : BinarySearchTree α) : List α := t.root.postOrder

/-- Source `__len__`. -/
def len {α : Type} (t : BinarySearchTree α) : Nat := t.size

/-- Building a tree by inserting a sequence of values into an empty tree. -/
def build {α : Type} [LinearOrder α] (vs : List α) : BinarySearchTree α :=
  vs.foldl insert empty

end BinarySearchTree

/-! ### BST lemmas -/

namespace BSTNode

variable {α : Type} [LinearOrder α]

/-- The search-tree ordering invariant. -/
def IsBST : BSTNode α → Prop
  | .leaf => True
  | .node l x r =>
      (∀ y ∈ l.inOrder, y < x) ∧ (∀ y ∈ r.inOrder, x < y) ∧ IsBST l ∧ IsBST r

theorem mem_inOrder_insertNode (t : BSTNode α) (v x : α) :
    x ∈ (t.insertNode v).1.inOrder ↔ x = v ∨ x ∈ t.inOrder := by
  induction t with
  | leaf => simp [insertNode, inOrder]
  | node l y r ihl ihr =>
    by_cases h1 : v < y
    · simp only [insertNode, if_pos h1, inOrder, List.mem_append,
        List.mem_cons] at ihl ⊢
      tauto
    · by_cases h2 : y < v
      · simp only [insertNode, if_neg h1, if_pos h2, inOrder, List.mem_append,
          List.mem_cons] at ihr ⊢
        tauto
      · have hvy : v = y := le_antisymm (not_lt.mp h2) (not_lt.mp h1)
        subst hvy
        simp only [insertNode, if_neg h1, inOrder, List.mem_append, List.mem_cons]
        tauto

theorem insertNode_snd_eq (t : BSTNode α) (v : α) :
    (t.insertNode v).2 = !(t.containsNode v) := by
  induction t with
  | leaf => simp [insertNode, containsNode]
  | node l y r ihl ihr =>
    by_cases h1 : v < y
    · simp [insertNode, containsNode, if_pos h1, ihl]
    · by_cases h2 : y < v
      · simp [insertNode, containsNode, if_neg h1, if_pos h2, ihr]
      · simp [insertNode, containsNode, if_neg h1, if_neg h2]

theorem insertNode_fst_of_snd_false (t : BSTNode α) (v : α)
    (h : (t.insertNode v).2 = false) : (t.insertNode v).1 = t := by
  induction t with
  | leaf => simp [insertNode] at h
  | node l y r ihl ihr =>
    by_cases h1 : v < y
    · simp only [insertNode, if_pos h1] at h ⊢
      rw [ihl h]
    · by_cases h2 : y < v
      · simp only [insertNode, if_neg h1, if_pos h2] at h ⊢
        rw [ihr h]
      · simp [insertNode, if_neg h1, if_neg h2]

theorem length_inOrder_insertNode_of_snd_true (t : BSTNode α) (v : α)
    (h : (t.insertNode v).2 = true) :
    (t.insertNode v).1.inOrder.length = t.inOrder.length + 1 := by
  induction t with
  | leaf => simp [insertNode, inOrder]
  | node l y r ihl ihr =>
    by_cases h1 : v < y
    · simp only [insertNode, if_pos h1] at h ⊢
      simp only [inOrder, List.length_append, List.length_cons, ihl h]
      omega
    · by_cases h2 : y < v
      · simp only [insertNode, if_neg h1, if_pos h2] at h ⊢
        simp only [inOrder, List.length_append, List.length_cons, ihr h]
        omega
      · simp [insertNode, if_neg h1, if_neg h2] at h

theorem isBST_insertNode (t : BSTNode α) (v : α) (ht : IsBST t) :
    IsBST (t.insertNode v).1 := by
  induction t with
  | leaf => exact ⟨by simp [inOrder], by simp [inOrder], trivial, trivial⟩
  | node l y r ihl ihr =>
    obtain ⟨hl, hr, hbl, hbr⟩ := ht
    by_cases h1 : v < y
    · simp only [insertNode, if_pos h1]
      refine ⟨?_, hr, ihl hbl, hbr⟩
      intro z hz
      rcases (mem_inOrder_insertNode l v z).mp hz with h' | h'
      · exact h' ▸ h1
      · exact hl z h'
    · by_cases h2 : y < v
      · simp only [insertNode, if_neg h1, if_pos h2]
        refine ⟨hl, ?_, hbl, ihr hbr⟩
        intro z hz
        rcases (mem_inOrder_insertNode r v z).mp hz with h' | h'
        · exact h' ▸ h2
        · exact hr z h'
      · simpa [insertNode, if_neg h1, if_neg h2] using ⟨hl, hr, hbl, hbr⟩

theorem sorted_inOrder (t : BSTNode α) (ht : IsBST t) :
    t.inOrder.Sorted (· < ·) := by
  induction t with
  | leaf => simp [inOrder]
  | node l y r ihl ihr =>
    obtain ⟨hl, hr, hbl, hbr⟩ := ht
    simp only [inOrder, List.Sorted]
    rw [List.pairwise_append]
    refine ⟨ihl hbl, ?_, ?_⟩
    · exact List.pairwise_cons.mpr ⟨fun z hz => hr z hz, ihr hbr⟩
    · intro a ha b hb
      rcases List.mem_cons.mp hb with rfl | hb'
      · exact hl a ha
      · exact lt_trans (hl a ha) (hr b hb')

theorem containsNode_iff_mem (t : BSTNode α) (v : α) (ht : IsBST t) :
    t.containsNode v = true ↔ v ∈ t.inOrder := by
  induction t with
  | leaf => simp [containsNode, inOrder]
  | node l y r ihl ihr =>
    obtain ⟨hl, hr, hbl, hbr⟩ := ht
    by_cases h1 : v < y
    · simp only [containsNode, if_pos h1, inOrder, List.mem_append, List.mem_cons]
      rw [ihl hbl]
      constructor
      · exact fun h => Or.inl h
      · rintro (h | h | h)
        · exact h
        · exact absurd (h ▸ h1) (lt_irrefl y)
        · exact absurd (lt_trans h1 (hr v h)) (lt_irrefl v)
    · by_cases h2 : y < v
      · simp only [containsNode, if_neg h1, if_pos h2, inOrder, List.mem_append,
          List.mem_cons]
        rw [ihr hbr]
        constructor
        · exact fun h => Or.inr (Or.inr h)
        · rintro (h | h | h)
          · exact absurd (lt_trans (hl v h) h2) (lt_irrefl v)
          · exact absurd (h ▸ h2) (lt_irrefl y)
          · exact h
      · have hvy : v = y := le_antisymm (not_lt.mp h2) (not_lt.mp h1)
        subst hvy
        simp [containsNode, inOrder]

end BSTNode

namespace BinarySearchTree

variable {α : Type} [LinearOrder α]

/-- The state invariant tying `_size` to the tree: the root is a search tree
and `_size` counts its nodes. -/
def Inv (t : BinarySearchTree α) : Prop :=
  t.root.IsBST ∧ t.size = t.root.inOrder.length

theorem inv_empty : (empty : BinarySearchTree α).Inv := by
  constructor
  · trivial
  · rfl

theorem inv_insert (t : BinarySearchTree α) (v : α) (ht : t.Inv) :
    (t.insert v).Inv := by
  obtain ⟨hbst, hsz⟩ := ht
  constructor
  · exact BSTNode.isBST_insertNode t.root v hbst
  · show (if (t.root.insertNode v).2 then t.size + 1 else t.size) =
      (t.root.insertNode v).1.inOrder.length
    by_cases h : (t.root.insertNode v).2
    · rw [if_pos h, BSTNode.length_inOrder_insertNode_of_snd_true t.root v h, hsz]
    · rw [if_neg h,
        BSTNode.insertNode_fst_of_snd_false t.root v ((Bool.not_eq_true _).mp h),
        hsz]

theorem mem_in_order_insert (t : BinarySearchTree α) (v x : α) :
    x ∈ (t.insert v).in_order ↔ x = v ∨ x ∈ t.in_order :=
  BSTNode.mem_inOrder_insertNode t.root v x

theorem inv_build_aux (vs : List α) :
    ∀ t : BinarySearchTree α, t.Inv →
      (vs.foldl insert t).Inv ∧
      (∀ x, x ∈ (vs.foldl insert t).in_order ↔ x ∈ vs ∨ x ∈ t.in_order) := by
  induction vs with
  | nil => exact fun t ht => ⟨ht, fun x => by simp⟩
  | cons v vs ih =>
    intro t ht
    obtain ⟨hinv, hmem⟩ := ih (t.insert v) (inv_insert t v ht)
    refine ⟨hinv, fun x => ?_⟩
    rw [List.foldl_cons] at *
    rw [hmem x, mem_in_order_insert, List.mem_cons]
    tauto

theorem inv_build (vs : List α) : (build vs).Inv ∧
    (∀ x, x ∈ (build vs).in_order ↔ x ∈ vs) := by
  obtain ⟨hinv, hmem⟩ := inv_build_aux vs empty inv_empty
  refine ⟨hinv, fun x => ?_⟩
  show x ∈ (List.foldl insert empty vs).in_order ↔ x ∈ vs
  rw [hmem x]
  simp [empty, in_order, BSTNode.inOrder]

end BinarySearchTree

/-- Claim C1: for every finite sequence of values inserted into a
`BinarySearchTree` via `insert`, the `in_order` traversal yields a
non-decreasing sequence of values, and the number of values it yields equals
the number of distinct values inserted, which also equals `len()`. -/
theorem bst_in_order_sorted_and_counts_distinct {α : Type} [LinearOrder α]
    (vs : List α) :
    (BinarySearchTree.build vs).in_order.Sorted (· ≤ ·) ∧
    (BinarySearchTree.build vs).in_order.length = vs.dedup.length ∧
    (BinarySearchTree.build vs).len = (BinarySearchTree.build vs).in_order.length := by
  obtain ⟨⟨hbst, hsz⟩, hmem⟩ := BinarySearchTree.inv_build vs
  have hsorted : (BinarySearchTree.build vs).in_order.Sorted (· < ·) :=
    BSTNode.sorted_inOrder _ hbst
  have hnd : (BinarySearchTree.build vs).in_order.Nodup := hsorted.nodup
  refine ⟨hsorted.le_of_lt, ?_, hsz⟩
  have hfs : (BinarySearchTree.build vs).in_order.toFinset = vs.dedup.toFinset := by
    ext x
    simp only [List.mem_toFinset, hmem x, List.mem_dedup]
  calc (BinarySearchTree.build vs).in_order.length
      = (BinarySearchTree.build vs).in_order.toFinset.card :=
        (List.toFinset_card_of_nodup hnd).symm
    _ = vs.dedup.toFinset.card := by rw [hfs]
    _ = vs.dedup.length := List.toFinset_card_of_nodup vs.nodup_dedup

/-! ## Trie (`advanced.py`)

`_TrieNode` has a `children` dict from single characters to child nodes and an
`is_end` flag; the dict is embedded as an association list. -/

inductive TrieNode where
  | mk : List (Char × TrieNode) → Bool → TrieNode

namespace TrieNode

def children : TrieNode → List (Char × TrieNode)
  | .mk cs _ => cs

def endFlag : TrieNode → Bool
  | .mk _ e => e

/-- Dict lookup `node.children[ch]` / `ch in node.children`. -/
def findChild (c : Char) : List (Char × TrieNode) → Option TrieNode
  | [] => none
  | (d, n) :: rest => if c = d then some n else findChild c rest

/-- Dict write `node.children[ch] = n` (replace if present, else add). -/
def setChild (c : Char) (n : TrieNode) : List (Char × TrieNode) → List (Char × TrieNode)
  | [] => [(c, n)]
  | (d, m) :: rest => if c = d then (c, n) :: rest else (d, m) :: setChild c n rest

/-- Source `Trie.insert`'s walk: `setdefault` each character, then set `is_end` on the
final node.  The boolean returns the final node's previous `is_end` (the
Python code increments `_size` exactly when it was false). -/
def insertW : List Char → TrieNode → TrieNode × Bool
  | [], .mk cs e => (.mk cs true, e)
  | c :: w, .mk cs e =>
    let child := (findChild c cs).getD (.mk [] false)
    let p := insertW w child
    (.mk (setChild c p.1 cs) e, p.2)

/-- The shared walk of `Trie.search` / `Trie.starts_with`: follow the exact
character path, `none` when a character is missing. -/
def walk : List Char → TrieNode → Option TrieNode
  | [], n => some n
  | c :: w, n =>
    match findChild c n.children with
    | none => none
    | some child => walk w child

end TrieNode

/-- Source `Trie`: `_root` and `_size`. -/
structure Trie where
  root : TrieNode
  size : Nat

namespace Trie

def empty : Trie := ⟨.mk [] false, 0⟩

/-- Source `Trie.insert`: `_size` is incremented exactly when the final node was not
already marked `is_end`. -/
def insert (t : Trie) (w : List Char) : Trie :=
  let p := TrieNode.insertW w t.root
  ⟨p.1, if p.2 then t.size else t.size + 1⟩

/-- Source `Trie.search`: the path must exist fully and the terminal node must be
marked `is_end`. -/
def search (t : Trie) (w : List Char) : Bool :=
  match TrieNode.walk w t.root with
  | none => false
  | some n => n.endFlag

/-- Source `Trie.starts_with`: the path must exist; the `is_end` flag is ignored. -/
def starts_with (t : Trie) (p : List Char) : Bool :=
  (TrieNode.walk p t.root).isSome

/-- Source `__len__`. -/
def len (t : Trie) : Nat := t.size

/-- Building a trie by inserting a sequence of words into an empty trie. -/
def build (ws : List (List Char)) : Trie :=
  ws.foldl insert empty

end Trie

/-! ### Trie lemmas -/

namespace TrieNode

/-- The `search` observation on a raw node. -/
def endAt (n : TrieNode) (w : List Char) : Bool :=
  match walk w n with
  | none => false
  | some m => m.endFlag

/-- The `starts_with` observation on a raw node. -/
def hasPath (n : TrieNode) (w : List Char) : Bool :=
  (walk w n).isSome

theorem findChild_setChild_self (c : Char) (n : TrieNode)
    (cs : List (Char × TrieNode)) : findChild c (setChild c n cs) = some n := by
  induction cs with
  | nil => simp [setChild, findChild]
  | cons p rest ih =>
    obtain ⟨d, m⟩ := p
    by_cases h : c = d
    · simp [setChild, findChild, if_pos h]
    · simp [setChild, findChild, if_neg h, ih]

theorem findChild_setChild_other (c d : Char) (n : TrieNode)
    (cs : List (Char × TrieNode)) (h : d ≠ c) :
    findChild d (setChild c n cs) = findChild d cs := by
  induction cs with
  | nil => simp [setChild, findChild, if_neg h]
  | cons p rest ih =>
    obtain ⟨d', m⟩ := p
    by_cases h' : c = d'
    · subst h'
      simp [setChild, findChild, if_neg h, ih]
    · by_cases h'' : d = d'
      · subst h''
        simp [setChild, findChild, if_neg h', if_pos rfl]
      · simp [setChild, findChild, if_neg h', if_neg h'', ih]

theorem endAt_fresh (w : List Char) : endAt (.mk [] false) w = false := by
  cases w with
  | nil => rfl
  | cons c w => simp [endAt, walk, children, findChild]

theorem hasPath_fresh (w : List Char) :
    hasPath (.mk [] false) w = decide (w = []) := by
  cases w with
  | nil => rfl
  | cons c w => simp [hasPath, walk, children, findChild]

/-- Inserting `w` changes the `search` observation only at `w`, where it
becomes true. -/
theorem endAt_insertW (w p : List Char) (n : TrieNode) :
    endAt (insertW w n).1 p = if p = w then true else endAt n p := by
  induction w generalizing p n with
  | nil =>
    obtain ⟨cs, e⟩ := n
    cases p with
    | nil => simp [insertW, endAt, walk, endFlag]
    | cons c p' => simp [insertW, endAt, walk, children]
  | cons c w' ih =>
    obtain ⟨cs, e⟩ := n
    cases p with
    | nil => simp [insertW, endAt, walk, endFlag]
    | cons d p' =>
      by_cases hdc : d = c
      · subst hdc
        simp only [insertW, endAt, walk, children, findChild_setChild_self,
          List.cons.injEq, true_and]
        have := ih p' ((findChild d cs).getD (.mk [] false))
        simp only [endAt] at this
        rw [this]
        by_cases hp : p' = w'
        · simp [hp]
        · simp only [if_neg hp, if_neg (fun h : d :: p' = d :: w' =>
            hp (List.cons.injEq .. ▸ h).2)]
          cases hfc : findChild d cs with
          | none =>
            have hf := endAt_fresh p'
            simp only [endAt] at hf
            simp [hfc, hf]
          | some child => simp [hfc]
      · simp only [insertW, endAt, walk, children,
          findChild_setChild_other c d _ cs hdc]
        rw [if_neg (fun h : d :: p' = c :: w' => hdc (List.cons.injEq .. ▸ h).1)]

/-- Inserting `w` makes the `starts_with` observation true exactly on the
prefixes of `w`, and keeps it anywhere it already was true. -/
theorem hasPath_insertW (w p : List Char) (n : TrieNode) :
    hasPath (insertW w n).1 p = (hasPath n p || decide (p <+: w)) := by
  induction w generalizing p n with
  | nil =>
    obtain ⟨cs, e⟩ := n
    cases p with
    | nil => simp [insertW, hasPath, walk]
    | cons c p' =>
      simp only [insertW, hasPath, walk, children]
      have : ¬ (c :: p' <+: ([] : List Char)) := by
        intro h
        exact absurd h.length_le (by simp)
      simp [this]
  | cons c w' ih =>
    obtain ⟨cs, e⟩ := n
    cases p with
    | nil => simp [insertW, hasPath, walk, List.nil_prefix]
    | cons d p' =>
      by_cases hdc : d = c
      · subst hdc
        simp only [insertW, hasPath, walk, children, findChild_setChild_self]
        have := ih p' ((findChild d cs).getD (.mk [] false))
        simp only [hasPath] at this
        rw [this]
        have hpre : (d :: p' <+: d :: w') ↔ (p' <+: w') := by
          rw [List.cons_prefix_cons]
          simp
        cases hfc : findChild d cs with
        | none =>
          have hf := hasPath_fresh p'
          simp only [hasPath] at hf
          by_cases hp : p' = []
          · subst hp
            simp [hfc, hf, hpre, List.nil_prefix]
          · simp [hfc, hf, hp, hpre]
        | some child => simp [hfc, hpre]
      · simp only [insertW, hasPath, walk, children,
          findChild_setChild_other c d _ cs hdc]
        have : ¬ (d :: p' <+: c :: w') := by
          intro h
          obtain ⟨s, hs⟩ := h
          exact hdc (List.cons.injEq .. ▸ hs).1
        simp [this]

end TrieNode

namespace Trie

/-- Source `search` on a built trie is exactly membership in the inserted words. -/
theorem search_build (ws : List (List Char)) (p : List Char) :
    (build ws).search p = decide (p ∈ ws) := by
  suffices h : ∀ t : Trie, (ws.foldl insert t).search p =
      (t.search p || decide (p ∈ ws)) by
    have := h empty
    simp only [build, this]
    have hemp : (empty.search p) = false := by
      have hf := TrieNode.endAt_fresh p
      simp only [TrieNode.endAt] at hf
      exact hf
    simp [hemp]
  induction ws with
  | nil => simp
  | cons w ws ih =>
    intro t
    rw [List.foldl_cons, ih (t.insert w)]
    have : (t.insert w).search p = (if p = w then true else t.search p) := by
      show (match TrieNode.walk p (TrieNode.insertW w t.root).1 with
        | none => false
        | some n => n.endFlag) = _
      have := TrieNode.endAt_insertW w p t.root
      simp only [TrieNode.endAt] at this
      exact this
    rw [this]
    by_cases hp : p = w
    · simp [hp]
    · simp [hp, List.mem_cons]

/-- Source `starts_with` on a built trie holds exactly for the empty string and the
prefixes of inserted words. -/
theorem starts_with_build (ws : List (List Char)) (p : List Char) :
    (build ws).starts_with p =
      (decide (p = []) || ws.any (fun w => decide (p <+: w))) := by
  suffices h : ∀ t : Trie, (ws.foldl insert t).starts_with p =
      (t.starts_with p || ws.any (fun w => decide (p <+: w))) by
    have := h empty
    simp only [build, this]
    have he : (empty.starts_with p) = decide (p = []) :=
      TrieNode.hasPath_fresh p
    rw [he]
  induction ws with
  | nil => simp
  | cons w ws ih =>
    intro t
    rw [List.foldl_cons, ih (t.insert w)]
    have : (t.insert w).starts_with p = (t.starts_with p || decide (p <+: w)) :=
      TrieNode.hasPath_insertW w p t.root
    rw [this]
    simp [List.any_cons, Bool.or_assoc]

end Trie

/-- Claim C5: for every Trie built by any sequence of `insert` calls and every
inserted word `w`, `starts_with p` returns true for every prefix `p` of `w`
(including `p = w`), while `search p` returns true exactly for the words that
were themselves explicitly inserted — a word that is merely a prefix of a
stored word is not found by `search`. -/
theorem trie_prefix_law (ws : List (List Char)) :
    (∀ w ∈ ws, ∀ p, p <+: w → (Trie.build ws).starts_with p = true) ∧
    (∀ p, (Trie.build ws).search p = true ↔ p ∈ ws) := by
  constructor
  · intro w hw p hp
    rw [Trie.starts_with_build]
    rcases List.eq_nil_or_concat p with rfl | _
    · simp
    · have : ws.any (fun w' => decide (p <+: w')) = true := by
        rw [List.any_eq_true]
        exact ⟨w, hw, by simpa using hp⟩
      simp [this]
  · intro p
    rw [Trie.search_build]
    simp

/-- Witness for Claim C5 at a concrete trie. -/
theorem trie_prefix_law_witness :
    (Trie.build [['a', 'p']]).starts_with ['a'] = true ∧
    ((Trie.build [['a', 'p']]).search ['a', 'p'] = true ↔
      ['a', 'p'] ∈ [['a', 'p']]) :=
  ⟨(trie_prefix_law [['a', 'p']]).1 ['a', 'p'] (by decide) ['a'] (by decide),
   (trie_prefix_law [['a', 'p']]).2 ['a', 'p']⟩

/-- Claim C10: for every Trie state, `starts_with ""` (the empty prefix)
returns true; on a trie built by any sequence of inserts, `search ""` returns
true if and only if the empty string was inserted; on a fresh trie
`search ""` returns false. -/
theorem trie_empty_string_queries :
    (∀ t : Trie, t.starts_with [] = true) ∧
    (∀ ws : List (List Char), ((Trie.build ws).search [] = true ↔ [] ∈ ws)) ∧
    Trie.empty.search [] = false := by
  refine ⟨fun t => rfl, fun ws => ?_, rfl⟩
  rw [Trie.search_build]
  simp

/-! ### Idempotence of repeated insertion -/

theorem BSTNode.insertNode_idem {α : Type} [LinearOrder α] (t : BSTNode α)
    (v : α) : (t.insertNode v).1.insertNode v = ((t.insertNode v).1, false) := by
  induction t with
  | leaf => simp [insertNode, lt_irrefl]
  | node l y r ihl ihr =>
    by_cases h1 : v < y
    · simp only [insertNode, if_pos h1]
      simp [insertNode, if_pos h1, ihl]
    · by_cases h2 : y < v
      · simp only [insertNode, if_neg h1, if_pos h2]
        simp [insertNode, if_neg h1, if_pos h2, ihr]
      · simp [insertNode, if_neg h1, if_neg h2]

theorem bst_insert_idem {α : Type} [LinearOrder α]
    (t : BinarySearchTree α) (v : α) : (t.insert v).insert v = t.insert v := by
  have h := BSTNode.insertNode_idem t.root v
  simp [BinarySearchTree.insert, h]

theorem TrieNode.setChild_setChild (c : Char) (n m : TrieNode)
    (cs : List (Char × TrieNode)) :
    setChild c n (setChild c m cs) = setChild c n cs := by
  induction cs with
  | nil => simp [setChild]
  | cons p rest ih =>
    obtain ⟨d, x⟩ := p
    by_cases h : c = d
    · simp [setChild, if_pos h]
    · simp [setChild, if_neg h, ih]

theorem TrieNode.insertW_idem (w : List Char) (n : TrieNode) :
    insertW w (insertW w n).1 = ((insertW w n).1, true) := by
  induction w generalizing n with
  | nil =>
    obtain ⟨cs, e⟩ := n
    simp [insertW]
  | cons c w' ih =>
    obtain ⟨cs, e⟩ := n
    simp only [insertW, findChild_setChild_self, Option.getD_some]
    rw [ih]
    simp [setChild_setChild]

theorem trie_insert_idem (t : Trie) (w : List Char) :
    (t.insert w).insert w = t.insert w := by
  have h := TrieNode.insertW_idem w t.root
  simp [Trie.insert, h]

/-- Claim C6: inserting the same value into a `BinarySearchTree` a second
time, or the same word into a `Trie` a second time, is idempotent: it changes
neither the size nor any traversal result (`in_order`/`pre_order`/`post_order`)
nor any query result (`contains`, `search`, `starts_with`) relative to the
state after the first insertion. -/
theorem insert_twice_idempotent {α : Type} [LinearOrder α] :
    (∀ (t : BinarySearchTree α) (v : α),
      ((t.insert v).insert v).len = (t.insert v).len ∧
      ((t.insert v).insert v).in_order = (t.insert v).in_order ∧
      ((t.insert v).insert v).pre_order = (t.insert v).pre_order ∧
      ((t.insert v).insert v).post_order = (t.insert v).post_order ∧
      (∀ x, ((t.insert v).insert v).contains x = (t.insert v).contains x)) ∧
    (∀ (u : Trie) (w : List Char),
      ((u.insert w).insert w).len = (u.insert w).len ∧
      (∀ p, ((u.insert w).insert w).search p = (u.insert w).search p) ∧
      (∀ p, ((u.insert w).insert w).starts_with p = (u.insert w).starts_with p)) := by
  constructor
  · intro t v
    rw [bst_insert_idem]
    exact ⟨rfl, rfl, rfl, rfl, fun _ => rfl⟩
  · intro u w
    rw [trie_insert_idem]
    exact ⟨rfl, fun _ => rfl, fun _ => rfl⟩

/-! ## Disjoint set (`advanced.py`)

`DisjointSet` keeps two dicts, `_parent` and `_rank`, embedded as association
lists.  The recursive `find` terminates because parents have strictly larger
rank on every reachable state; the embedding gives it fuel
`len(parent) + 1`, which the invariant proves sufficient. -/

/-- Dict read `d[k]` / `k in d`. -/
def getk {α β : Type} [DecidableEq α] (k : α) : List (α × β) → Option β
  | [] => none
  | (a, b) :: rest => if a = k then some b else getk k rest

/-- Dict write `d[k] = v` (replace if present, else add). -/
def setk {α β : Type} [DecidableEq α] (k : α) (v : β) :
    List (α × β) → List (α × β)
  | [] => [(k, v)]
  | (a, b) :: rest => if a = k then (k, v) :: rest else (a, b) :: setk k v rest

/-- The key list of a dict. -/
def keys {α β : Type} (l : List (α × β)) : List α := l.map Prod.fst

theorem getk_setk_self {α β : Type} [DecidableEq α] (k : α) (v : β)
    (l : List (α × β)) : getk k (setk k v l) = some v := by
  induction l with
  | nil => simp [setk, getk]
  | cons p rest ih =>
    obtain ⟨a, b⟩ := p
    by_cases h : a = k
    · simp [setk, getk, if_pos h]
    · simp [setk, getk, if_neg h, ih]

theorem getk_setk_other {α β : Type} [DecidableEq α] (k k' : α) (v : β)
    (l : List (α × β)) (h : k' ≠ k) : getk k' (setk k v l) = getk k' l := by
  induction l with
  | nil => simp only [setk, getk, if_neg (fun h' : k = k' => h h'.symm)]
  | cons p rest ih =>
    obtain ⟨a, b⟩ := p
    by_cases h1 : a = k
    · have h2 : ¬ a = k' := fun h' => h (h'.symm.trans h1)
      simp only [setk, if_pos h1, getk, if_neg (fun h' : k = k' => h h'.symm),
        if_neg h2]
    · by_cases h2 : a = k'
      · simp only [setk, if_neg h1, getk, if_pos h2]
      · simp only [setk, if_neg h1, getk, if_neg h2, ih]

theorem mem_keys_of_getk {α β : Type} [DecidableEq α] {k : α} {v : β}
    {l : List (α × β)} (h : getk k l = some v) : k ∈ keys l := by
  induction l with
  | nil => simp [getk] at h
  | cons p rest ih =>
    obtain ⟨a, b⟩ := p
    by_cases h1 : a = k
    · simp [keys, h1]
    · simp only [getk, if_neg h1] at h
      simp [keys] at ih ⊢
      exact Or.inr (ih h)

/-- Source `DisjointSet`: `_parent` and `_rank`. -/
structure DisjointSet (α : Type) where
  parent : List (α × α)
  rank : List (α × Nat)
deriving DecidableEq

namespace DisjointSet

variable {α : Type} [DecidableEq α]

def empty : DisjointSet α := ⟨[], []⟩

/-- Source `make_set`: register an unknown item with itself as parent and rank 0. -/
def make_set (s : DisjointSet α) (x : α) : DisjointSet α :=
  match getk x s.parent with
  | some _ => s
  | none => ⟨setk x x s.parent, setk x 0 s.rank⟩

/-- Source `find`'s recursion: auto-register, then follow and rewrite parents up to
the root.  Fuel-indexed; the invariant shows `len(parent) + 1` fuel always
suffices on reachable states. -/
def findAux : Nat → DisjointSet α → α → α × DisjointSet α
  | 0, s, x => (x, s)
  | fuel + 1, s0, x =>
    let s := s0.make_set x
    let p := (getk x s.parent).getD x
    if p = x then (x, s)
    else
      let q := findAux fuel s p
      (q.1, ⟨setk x q.1 q.2.parent, q.2.rank⟩)

def find (s : DisjointSet α) (x : α) : α × DisjointSet α :=
  findAux (s.parent.length + 1) s x

/-- Source `self._rank[item]`; total via a default that the invariant never uses. -/
def rankOf (s : DisjointSet α) (x : α) : Nat := (getk x s.rank).getD 0

/-- Source `union`: find both roots, no-op if equal, else attach by rank; on a tie
the first root wins and its rank increments. -/
def union (s : DisjointSet α) (a b : α) : DisjointSet α :=
  let qa := s.find a
  let qb := qa.2.find b
  let ra := qa.1
  let rb := qb.1
  let s2 := qb.2
  if ra = rb then s2
  else if s2.rankOf ra < s2.rankOf rb then ⟨setk ra rb s2.parent, s2.rank⟩
  else if s2.rankOf rb < s2.rankOf ra then ⟨setk rb ra s2.parent, s2.rank⟩
  else ⟨setk rb ra s2.parent, setk ra (s2.rankOf ra + 1) s2.rank⟩

/-- Source `connected`: compare the two roots (both finds mutate the state). -/
def connected (s : DisjointSet α) (a b : α) : Bool × DisjointSet α :=
  let qa := s.find a
  let qb := qa.2.find b
  (decide (qa.1 = qb.1), qb.2)

/-- States reachable through the public operations. -/
inductive Reachable : DisjointSet α → Prop where
  | empty : Reachable empty
  | make_set (s x) : Reachable s → Reachable (s.make_set x)
  | find (s x) : Reachable s → Reachable (s.find x).2
  | union (s a b) : Reachable s → Reachable (s.union a b)
  | connected (s a b) : Reachable s → Reachable (s.connected a b).2

/-- The union-find forest invariant: parents of keys are keys, and following
a non-trivial parent link strictly increases rank (hence no cycles). -/
structure WF (s : DisjointSet α) : Prop where
  closed : ∀ x y, getk x s.parent = some y → (getk y s.parent).isSome
  rankInc : ∀ x y, getk x s.parent = some y → x ≠ y → s.rankOf x < s.rankOf y

/-- The parent chain from an item up to its root. -/
inductive IsChain (s : DisjointSet α) : α → List α → Prop where
  | root (x) : getk x s.parent = some x → IsChain s x [x]
  | step (x p c) : getk x s.parent = some p → p ≠ x → IsChain s p c →
      IsChain s x (x :: c)

/-- Executable parent chain, as visited by `find`. -/
def chainAux : Nat → DisjointSet α → α → List α
  | 0, _, x => [x]
  | fuel + 1, s, x =>
    match getk x s.parent with
    | none => [x]
    | some p => if p = x then [x] else x :: chainAux fuel s p

/-- The nodes visited by `find s x`, from `x` up to its root (after the
auto-registration step). -/
def chainOf (s : DisjointSet α) (x : α) : List α :=
  chainAux ((s.make_set x).parent.length + 1) (s.make_set x) x

end DisjointSet

/-! ### Disjoint-set lemmas -/

theorem mem_of_getLast?_eq {α : Type} {l : List α} {a : α}
    (h : l.getLast? = some a) : a ∈ l := by
  have h' : a ∈ l.getLast? := h ▸ rfl
  obtain ⟨hne, heq⟩ := List.mem_getLast?_eq_getLast h'
  exact heq ▸ List.getLast_mem hne

namespace DisjointSet

variable {α : Type} [DecidableEq α]

theorem make_set_of_mem (s : DisjointSet α) (x : α)
    (h : (getk x s.parent).isSome) : s.make_set x = s := by
  cases hx : getk x s.parent with
  | none => rw [hx] at h; exact absurd h (by simp)
  | some y => simp [make_set, hx]

theorem make_set_of_not_mem (s : DisjointSet α) (x : α)
    (h : getk x s.parent = none) :
    s.make_set x = ⟨setk x x s.parent, setk x 0 s.rank⟩ := by
  simp [make_set, h]

theorem dsu_wf_empty : (empty : DisjointSet α).WF := by
  constructor
  · intro x y h
    simp [getk, empty] at h
  · intro x y h
    simp [getk, empty] at h

theorem wf_make_set (s : DisjointSet α) (x : α) (hwf : s.WF) :
    (s.make_set x).WF := by
  cases hx : getk x s.parent with
  | some y => rw [make_set_of_mem s x (by simp [hx])]; exact hwf
  | none =>
    rw [make_set_of_not_mem s x hx]
    constructor
    · intro a b hab
      by_cases hax : a = x
      · subst hax
        rw [getk_setk_self] at hab
        cases hab
        simp [getk_setk_self]
      · rw [getk_setk_other x a x s.parent hax] at hab
        have hb := hwf.closed a b hab
        by_cases hbx : b = x
        · subst hbx
          simp [getk_setk_self]
        · rw [getk_setk_other x b x s.parent hbx]
          exact hb
    · intro a b hab hne
      by_cases hax : a = x
      · subst hax
        rw [getk_setk_self] at hab
        cases hab
        exact absurd rfl hne
      · rw [getk_setk_other x a x s.parent hax] at hab
        have hbx : b ≠ x := by
          intro hbx
          subst hbx
          have hsome := hwf.closed a b hab
          rw [hx] at hsome
          simp at hsome
        have hr := hwf.rankInc a b hab hne
        show ((getk a (setk x 0 s.rank)).getD 0) < ((getk b (setk x 0 s.rank)).getD 0)
        rw [getk_setk_other x a 0 s.rank hax, getk_setk_other x b 0 s.rank hbx]
        exact hr

theorem chain_ne_nil {s : DisjointSet α} {x : α} {c : List α}
    (h : IsChain s x c) : c ≠ [] := by
  cases h <;> simp

theorem chain_head {s : DisjointSet α} {x : α} {c : List α}
    (h : IsChain s x c) : c.head? = some x := by
  cases h <;> rfl

theorem chain_mem_keys {s : DisjointSet α} {x : α} {c : List α}
    (h : IsChain s x c) : ∀ y ∈ c, (getk y s.parent).isSome := by
  induction h with
  | root z hz =>
    intro y hy
    rw [List.mem_singleton] at hy
    subst hy
    simp [hz]
  | step z p c hz hpz hc ih =>
    intro y hy
    rcases List.mem_cons.mp hy with rfl | hy'
    · simp [hz]
    · exact ih y hy'

theorem chain_rank_le {s : DisjointSet α} (hwf : s.WF) {x : α} {c : List α}
    (h : IsChain s x c) : ∀ y ∈ c, s.rankOf x ≤ s.rankOf y := by
  induction h with
  | root z hz =>
    intro y hy
    rw [List.mem_singleton] at hy
    subst hy
    exact le_refl _
  | step z p c hz hpz hc ih =>
    intro y hy
    rcases List.mem_cons.mp hy with rfl | hy'
    · exact le_refl _
    · exact le_of_lt (lt_of_lt_of_le (hwf.rankInc z p hz (Ne.symm hpz)) (ih y hy'))

theorem chain_pairwise {s : DisjointSet α} (hwf : s.WF) {x : α} {c : List α}
    (h : IsChain s x c) :
    c.Pairwise (fun a b => s.rankOf a < s.rankOf b) := by
  induction h with
  | root z hz => simp
  | step z p c hz hpz hc ih =>
    rw [List.pairwise_cons]
    refine ⟨fun y hy => ?_, ih⟩
    exact lt_of_lt_of_le (hwf.rankInc z p hz (Ne.symm hpz))
      (chain_rank_le hwf hc y hy)

theorem chain_nodup {s : DisjointSet α} (hwf : s.WF) {x : α} {c : List α}
    (h : IsChain s x c) : c.Nodup :=
  (chain_pairwise hwf h).imp (fun hlt heq => absurd (heq ▸ hlt) (lt_irrefl _))

theorem chain_last_self {s : DisjointSet α} {x : α} {c : List α}
    (h : IsChain s x c) :
    ∃ r, c.getLast? = some r ∧ getk r s.parent = some r := by
  induction h with
  | root z hz => exact ⟨z, rfl, hz⟩
  | step z p c hz hpz hc ih =>
    obtain ⟨r, hr, hrr⟩ := ih
    obtain ⟨b, cs, rfl⟩ := List.exists_cons_of_ne_nil (chain_ne_nil hc)
    exact ⟨r, by rw [List.getLast?_cons_cons]; exact hr, hrr⟩

theorem chain_le_root {s : DisjointSet α} (hwf : s.WF) {x : α} {c : List α}
    (h : IsChain s x c) {r : α} (hr : c.getLast? = some r) :
    ∀ y ∈ c, y = r ∨ s.rankOf y < s.rankOf r := by
  induction h generalizing r with
  | root z hz =>
    intro y hy
    rw [List.mem_singleton] at hy
    subst hy
    cases hr
    exact Or.inl rfl
  | step z p c hz hpz hc ih =>
    intro y hy
    obtain ⟨b, cs, rfl⟩ := List.exists_cons_of_ne_nil (chain_ne_nil hc)
    rw [List.getLast?_cons_cons] at hr
    rcases List.mem_cons.mp hy with rfl | hy'
    · have hp_mem : p ∈ b :: cs := by
        have := chain_head hc
        simp only [List.head?_cons] at this
        cases this
        exact List.mem_cons_self _ _
      have hzp := hwf.rankInc y p hz (Ne.symm hpz)
      rcases ih hr p hp_mem with rfl | hlt
      · exact Or.inr hzp
      · exact Or.inr (lt_trans hzp hlt)
    · exact ih hr y hy'

theorem chain_self_parented_last {s : DisjointSet α} {x : α} {c : List α}
    (h : IsChain s x c) {y : α} (hy : y ∈ c)
    (hyy : getk y s.parent = some y) : c.getLast? = some y := by
  induction h with
  | root z hz =>
    rw [List.mem_singleton] at hy
    subst hy
    rfl
  | step z p c hz hpz hc ih =>
    rcases List.mem_cons.mp hy with rfl | hy'
    · have := hz.symm.trans hyy
      cases this
      exact absurd rfl hpz
    · obtain ⟨b, cs, rfl⟩ := List.exists_cons_of_ne_nil (chain_ne_nil hc)
      rw [List.getLast?_cons_cons]
      exact ih hy'

/-- Termination measure for the parent walk: the number of distinct keys of
rank at least the current item's rank. -/
def measureOf (s : DisjointSet α) (x : α) : Nat :=
  ((keys s.parent).toFinset.filter (fun y => s.rankOf x ≤ s.rankOf y)).card

theorem measure_lt {s : DisjointSet α} (hwf : s.WF) {x p : α}
    (hp : getk x s.parent = some p) (hpx : p ≠ x) :
    measureOf s p < measureOf s x := by
  have hrank := hwf.rankInc x p hp (Ne.symm hpx)
  have hsub : (keys s.parent).toFinset.filter (fun y => s.rankOf p ≤ s.rankOf y) ⊆
      (keys s.parent).toFinset.filter (fun y => s.rankOf x ≤ s.rankOf y) := by
    intro y hy
    simp only [Finset.mem_filter, List.mem_toFinset] at hy ⊢
    exact ⟨hy.1, le_trans (le_of_lt hrank) hy.2⟩
  refine Finset.card_lt_card ((Finset.ssubset_iff_of_subset hsub).mpr ⟨x, ?_, ?_⟩)
  · simp only [Finset.mem_filter, List.mem_toFinset]
    exact ⟨mem_keys_of_getk hp, le_refl _⟩
  · simp only [Finset.mem_filter, List.mem_toFinset, not_and]
    intro _
    exact not_le.mpr hrank

theorem chain_exists_aux {s : DisjointSet α} (hwf : s.WF) :
    ∀ (n : Nat) (x : α), measureOf s x ≤ n → (getk x s.parent).isSome →
      ∃ c, IsChain s x c := by
  intro n
  induction n with
  | zero =>
    intro x hm hx
    exfalso
    obtain ⟨p, hp⟩ := Option.isSome_iff_exists.mp hx
    have hx_mem : x ∈ (keys s.parent).toFinset.filter
        (fun y => s.rankOf x ≤ s.rankOf y) := by
      simp only [Finset.mem_filter, List.mem_toFinset]
      exact ⟨mem_keys_of_getk hp, le_refl _⟩
    have := Finset.card_pos.mpr ⟨x, hx_mem⟩
    simp only [measureOf] at hm
    omega
  | succ n ih =>
    intro x hm hx
    obtain ⟨p, hp⟩ := Option.isSome_iff_exists.mp hx
    by_cases hpx : p = x
    · exact ⟨[x], IsChain.root x (hpx ▸ hp)⟩
    · have hlt := measure_lt hwf hp hpx
      obtain ⟨c, hc⟩ := ih p (by omega) (hwf.closed x p hp)
      exact ⟨x :: c, IsChain.step x p c hp hpx hc⟩

theorem chain_exists {s : DisjointSet α} (hwf : s.WF) (x : α)
    (hx : (getk x s.parent).isSome) : ∃ c, IsChain s x c :=
  chain_exists_aux hwf (measureOf s x) x (le_refl _) hx

theorem chain_length_le {s : DisjointSet α} (hwf : s.WF) {x : α} {c : List α}
    (h : IsChain s x c) : c.length ≤ s.parent.length := by
  have hnd : c.Nodup := chain_nodup hwf h
  have hsub : c.toFinset ⊆ (keys s.parent).toFinset := by
    intro y hy
    rw [List.mem_toFinset] at hy ⊢
    obtain ⟨z, hz⟩ := Option.isSome_iff_exists.mp (chain_mem_keys h y hy)
    exact mem_keys_of_getk hz
  calc c.length = c.toFinset.card := (List.toFinset_card_of_nodup hnd).symm
    _ ≤ (keys s.parent).toFinset.card := Finset.card_le_card hsub
    _ ≤ (keys s.parent).length := List.toFinset_card_le _
    _ = s.parent.length := List.length_map _ _

theorem chainAux_eq {s : DisjointSet α} {x : α} {c : List α}
    (h : IsChain s x c) :
    ∀ fuel, c.length ≤ fuel + 1 → chainAux fuel s x = c := by
  induction h with
  | root z hz =>
    intro fuel _
    cases fuel with
    | zero => rfl
    | succ f => simp [chainAux, hz]
  | step z p c hz hpz hc ih =>
    intro fuel hlen
    have hcpos : 1 ≤ c.length := List.length_pos.mpr (chain_ne_nil hc)
    simp only [List.length_cons] at hlen
    cases fuel with
    | zero => omega
    | succ f =>
      simp only [chainAux, hz, if_neg hpz]
      rw [ih f (by omega)]

theorem findAux_spec {s : DisjointSet α} (hwf : s.WF) {x : α} {c : List α}
    (h : IsChain s x c) :
    ∀ fuel, c.length ≤ fuel →
      ∃ r, c.getLast? = some r ∧
        (findAux fuel s x).1 = r ∧
        (findAux fuel s x).2.rank = s.rank ∧
        (∀ y ∈ c, getk y (findAux fuel s x).2.parent = some r) ∧
        (∀ y, y ∉ c → getk y (findAux fuel s x).2.parent = getk y s.parent) := by
  induction h with
  | root z hz =>
    intro fuel hlen
    cases fuel with
    | zero => simp at hlen
    | succ f =>
      have hms : s.make_set z = s := make_set_of_mem s z (by simp [hz])
      have hred : findAux (f + 1) s z = (z, s) := by
        simp [findAux, hms, hz]
      refine ⟨z, rfl, by rw [hred], by rw [hred], ?_, ?_⟩
      · intro y hy
        rw [List.mem_singleton] at hy
        subst hy
        rw [hred]
        exact hz
      · intro y _
        rw [hred]
  | step z p c hz hpz hc ih =>
    intro fuel hlen
    have hcpos : 1 ≤ c.length := List.length_pos.mpr (chain_ne_nil hc)
    simp only [List.length_cons] at hlen
    cases fuel with
    | zero => omega
    | succ f =>
      have hms : s.make_set z = s := make_set_of_mem s z (by simp [hz])
      have hred : findAux (f + 1) s z =
          ((findAux f s p).1,
           ⟨setk z (findAux f s p).1 (findAux f s p).2.parent,
            (findAux f s p).2.rank⟩) := by
        simp [findAux, hms, hz, hpz]
      obtain ⟨r, hr, hfst, hrank, hmem, hout⟩ := ih f (by omega)
      have hnd : (z :: c).Nodup :=
        chain_nodup hwf (IsChain.step z p c hz hpz hc)
      have hzc : z ∉ c := (List.nodup_cons.mp hnd).1
      refine ⟨r, ?_, ?_, ?_, ?_, ?_⟩
      · obtain ⟨b, cs, rfl⟩ := List.exists_cons_of_ne_nil (chain_ne_nil hc)
        rw [List.getLast?_cons_cons]
        exact hr
      · rw [hred]
        exact hfst
      · rw [hred]
        exact hrank
      · intro y hy
        rw [hred]
        rcases List.mem_cons.mp hy with rfl | hy'
        · show getk y (setk y (findAux f s p).1 (findAux f s p).2.parent) = some r
          rw [getk_setk_self, hfst]
        · have hyz : y ≠ z := fun heq => hzc (heq ▸ hy')
          show getk y (setk z (findAux f s p).1 (findAux f s p).2.parent) = some r
          rw [getk_setk_other z y _ _ hyz]
          exact hmem y hy'
      · intro y hy
        rw [List.mem_cons] at hy
        push_neg at hy
        rw [hred]
        show getk y (setk z (findAux f s p).1 (findAux f s p).2.parent) =
          getk y s.parent
        rw [getk_setk_other z y _ _ hy.1]
        exact hout y hy.2

theorem find_of_not_mem (s : DisjointSet α) (x : α)
    (hx : getk x s.parent = none) : s.find x = (x, s.make_set x) := by
  show findAux (s.parent.length + 1) s x = _
  have h1 : getk x (s.make_set x).parent = some x := by
    rw [make_set_of_not_mem s x hx]
    exact getk_setk_self x x s.parent
  simp [findAux, h1]

theorem find_spec_of_mem {s : DisjointSet α} (hwf : s.WF) {x : α}
    (hx : (getk x s.parent).isSome) :
    ∃ c, IsChain s x c ∧ chainOf s x = c ∧
      ∃ r, c.getLast? = some r ∧
        (s.find x).1 = r ∧
        (s.find x).2.rank = s.rank ∧
        (∀ y ∈ c, getk y (s.find x).2.parent = some r) ∧
        (∀ y, y ∉ c → getk y (s.find x).2.parent = getk y s.parent) := by
  obtain ⟨c, hc⟩ := chain_exists hwf x hx
  have hlen := chain_length_le hwf hc
  have hms : s.make_set x = s := make_set_of_mem s x hx
  refine ⟨c, hc, ?_, findAux_spec hwf hc (s.parent.length + 1) (by omega)⟩
  show chainAux ((s.make_set x).parent.length + 1) (s.make_set x) x = c
  rw [hms]
  exact chainAux_eq hc (s.parent.length + 1) (by omega)

theorem wf_find (s : DisjointSet α) (x : α) (hwf : s.WF) : (s.find x).2.WF := by
  cases hx : getk x s.parent with
  | none =>
    rw [find_of_not_mem s x hx]
    exact wf_make_set s x hwf
  | some p =>
    obtain ⟨c, hc, hchain, r, hr, hfst, hrank, hmem, hout⟩ :=
      find_spec_of_mem hwf (x := x) (by simp [hx])
    have hrc : r ∈ c := mem_of_getLast?_eq hr
    have hrk : ∀ y, (s.find x).2.rankOf y = s.rankOf y := fun y => by
      simp [rankOf, hrank]
    have hroot_le := chain_le_root hwf hc hr
    constructor
    · intro u v huv
      by_cases hu : u ∈ c
      · rw [hmem u hu] at huv
        cases huv
        simp [hmem r hrc]
      · rw [hout u hu] at huv
        have hv := hwf.closed u v huv
        by_cases hv' : v ∈ c
        · simp [hmem v hv']
        · rw [hout v hv']
          exact hv
    · intro u v huv hne
      rw [hrk, hrk]
      by_cases hu : u ∈ c
      · rw [hmem u hu] at huv
        cases huv
        rcases hroot_le u hu with rfl | hlt
        · exact absurd rfl hne
        · exact hlt
      · rw [hout u hu] at huv
        exact hwf.rankInc u v huv hne

theorem find_root (s : DisjointSet α) (x : α) (hwf : s.WF) :
    getk (s.find x).1 (s.find x).2.parent = some (s.find x).1 := by
  cases hx : getk x s.parent with
  | none =>
    rw [find_of_not_mem s x hx]
    show getk x (s.make_set x).parent = some x
    rw [make_set_of_not_mem s x hx]
    exact getk_setk_self x x s.parent
  | some p =>
    obtain ⟨c, hc, hchain, r, hr, hfst, hrank, hmem, hout⟩ :=
      find_spec_of_mem hwf (x := x) (by simp [hx])
    rw [hfst]
    exact hmem r (mem_of_getLast?_eq hr)

theorem find_keeps_root (s : DisjointSet α) (x r : α) (hwf : s.WF)
    (hr : getk r s.parent = some r) (hne : (s.find x).1 ≠ r) :
    getk r (s.find x).2.parent = some r := by
  cases hx : getk x s.parent with
  | none =>
    rw [find_of_not_mem s x hx] at hne ⊢
    show getk r (s.make_set x).parent = some r
    rw [make_set_of_not_mem s x hx]
    have hrx : r ≠ x := fun heq => hne (by simpa using heq.symm)
    rw [getk_setk_other x r x s.parent hrx]
    exact hr
  | some p =>
    obtain ⟨c, hc, hchain, r', hr', hfst, hrank, hmem, hout⟩ :=
      find_spec_of_mem hwf (x := x) (by simp [hx])
    by_cases hrc : r ∈ c
    · exfalso
      have := chain_self_parented_last hc hrc hr
      rw [hr'] at this
      cases this
      exact hne (hfst.trans rfl)
    · rw [hout r hrc]
      exact hr

theorem wf_union (s : DisjointSet α) (a b : α) (hwf : s.WF) :
    (s.union a b).WF := by
  have hwf1 : (s.find a).2.WF := wf_find s a hwf
  have hwf2 : ((s.find a).2.find b).2.WF := wf_find _ b hwf1
  have hrb_root := find_root (s.find a).2 b hwf1
  have hra_root_s1 := find_root s a hwf
  by_cases hab : (s.find a).1 = ((s.find a).2.find b).1
  · have hu : s.union a b = ((s.find a).2.find b).2 := by
      simp [union, hab]
    rw [hu]
    exact hwf2
  · have hra_root : getk (s.find a).1 ((s.find a).2.find b).2.parent =
        some (s.find a).1 :=
      find_keeps_root (s.find a).2 b (s.find a).1 hwf1 hra_root_s1
        (fun heq => hab heq.symm)
    set ra := (s.find a).1 with hra_def
    set rb := ((s.find a).2.find b).1 with hrb_def
    set s2 := ((s.find a).2.find b).2 with hs2_def
    by_cases h1 : s2.rankOf ra < s2.rankOf rb
    · have hu : s.union a b = ⟨setk ra rb s2.parent, s2.rank⟩ := by
        simp [union, hab, h1]
      rw [hu]
      constructor
      · intro u v huv
        show (getk v (setk ra rb s2.parent)).isSome
        by_cases hu' : u = ra
        · subst hu'
          rw [getk_setk_self] at huv
          cases huv
          rw [getk_setk_other ra rb rb s2.parent (fun heq => hab heq.symm)]
          simp [hrb_root]
        · rw [getk_setk_other ra u rb s2.parent hu'] at huv
          by_cases hv' : v = ra
          · subst hv'
            simp [getk_setk_self]
          · rw [getk_setk_other ra v rb s2.parent hv']
            exact hwf2.closed u v huv
      · intro u v huv hne
        show s2.rankOf u < s2.rankOf v
        by_cases hu' : u = ra
        · subst hu'
          rw [getk_setk_self] at huv
          cases huv
          exact h1
        · rw [getk_setk_other ra u rb s2.parent hu'] at huv
          exact hwf2.rankInc u v huv hne
    · by_cases h2 : s2.rankOf rb < s2.rankOf ra
      · have hu : s.union a b = ⟨setk rb ra s2.parent, s2.rank⟩ := by
          simp [union, hab, h1, h2]
        rw [hu]
        have hba : rb ≠ ra := fun heq => hab heq.symm
        constructor
        · intro u v huv
          show (getk v (setk rb ra s2.parent)).isSome
          by_cases hu' : u = rb
          · subst hu'
            rw [getk_setk_self] at huv
            cases huv
            rw [getk_setk_other rb ra ra s2.parent hab]
            simp [hra_root]
          · rw [getk_setk_other rb u ra s2.parent hu'] at huv
            by_cases hv' : v = rb
            · subst hv'
              simp [getk_setk_self]
            · rw [getk_setk_other rb v ra s2.parent hv']
              exact hwf2.closed u v huv
        · intro u v huv hne
          show s2.rankOf u < s2.rankOf v
          by_cases hu' : u = rb
          · subst hu'
            rw [getk_setk_self] at huv
            cases huv
            exact h2
          · rw [getk_setk_other rb u ra s2.parent hu'] at huv
            exact hwf2.rankInc u v huv hne
      · have heq : s2.rankOf ra = s2.rankOf rb := le_antisymm
          (not_lt.mp h2) (not_lt.mp h1)
        have hu : s.union a b =
            ⟨setk rb ra s2.parent, setk ra (s2.rankOf ra + 1) s2.rank⟩ := by
          simp [union, hab, h1, h2]
        rw [hu]
        have hba : rb ≠ ra := fun heq' => hab heq'.symm
        have hrk : ∀ y, y ≠ ra →
            ((getk y (setk ra (s2.rankOf ra + 1) s2.rank)).getD 0) =
              s2.rankOf y := by
          intro y hy
          rw [getk_setk_other ra y _ s2.rank hy]
          rfl
        have hrk_ra : ((getk ra (setk ra (s2.rankOf ra + 1) s2.rank)).getD 0) =
            s2.rankOf ra + 1 := by
          rw [getk_setk_self]
          rfl
        constructor
        · intro u v huv
          show (getk v (setk rb ra s2.parent)).isSome
          by_cases hu' : u = rb
          · subst hu'
            rw [getk_setk_self] at huv
            cases huv
            rw [getk_setk_other rb ra ra s2.parent hab]
            simp [hra_root]
          · rw [getk_setk_other rb u ra s2.parent hu'] at huv
            by_cases hv' : v = rb
            · subst hv'
              simp [getk_setk_self]
            · rw [getk_setk_other rb v ra s2.parent hv']
              exact hwf2.closed u v huv
        · intro u v huv hne
          show ((getk u (setk ra (s2.rankOf ra + 1) s2.rank)).getD 0) <
            ((getk v (setk ra (s2.rankOf ra + 1) s2.rank)).getD 0)
          by_cases hu' : u = rb
          · subst hu'
            rw [getk_setk_self] at huv
            cases huv
            rw [hrk _ hba, hrk_ra]
            omega
          · rw [getk_setk_other rb u ra s2.parent hu'] at huv
            have hu_ra : u ≠ ra := by
              intro heq'
              subst heq'
              have := hra_root.symm.trans huv
              cases this
              exact hne rfl
            rw [hrk u hu_ra]
            by_cases hv' : v = ra
            · subst hv'
              rw [hrk_ra]
              have := hwf2.rankInc u ra huv hne
              omega
            · rw [hrk v hv']
              exact hwf2.rankInc u v huv hne

theorem connected_snd (s : DisjointSet α) (a b : α) :
    (s.connected a b).2 = ((s.find a).2.find b).2 := rfl

theorem dsu_reachable_wf {s : DisjointSet α} (h : s.Reachable) : s.WF := by
  induction h with
  | empty => exact dsu_wf_empty
  | make_set s x _ ih => exact wf_make_set s x ih
  | find s x _ ih => exact wf_find s x ih
  | union s a b _ ih => exact wf_union s a b ih
  | connected s a b _ ih =>
    rw [connected_snd]
    exact wf_find _ b (wf_find s a ih)

/-- Source `union` written with the intermediate finds expanded. -/
theorem union_eq_cases (s : DisjointSet α) (a b : α) :
    s.union a b =
      (if (s.find a).1 = ((s.find a).2.find b).1 then ((s.find a).2.find b).2
       else if ((s.find a).2.find b).2.rankOf (s.find a).1 <
           ((s.find a).2.find b).2.rankOf ((s.find a).2.find b).1 then
         ⟨setk (s.find a).1 ((s.find a).2.find b).1
            ((s.find a).2.find b).2.parent,
          ((s.find a).2.find b).2.rank⟩
       else if ((s.find a).2.find b).2.rankOf ((s.find a).2.find b).1 <
           ((s.find a).2.find b).2.rankOf (s.find a).1 then
         ⟨setk ((s.find a).2.find b).1 (s.find a).1
            ((s.find a).2.find b).2.parent,
          ((s.find a).2.find b).2.rank⟩
       else
         ⟨setk ((s.find a).2.find b).1 (s.find a).1
            ((s.find a).2.find b).2.parent,
          setk (s.find a).1 (((s.find a).2.find b).2.rankOf (s.find a).1 + 1)
            ((s.find a).2.find b).2.rank⟩) := rfl

end DisjointSet

/-- Claim C3: for every reachable DisjointSet state and every item,
`find item` first auto-registers the item as its own parent if it is unknown
(callers need not call `make_set` beforehand), and performs path compression:
after `find item` returns root `r`, the parent of the item and of every node
visited on the chain from the item to the root equals `r` directly. -/
theorem dsu_find_autoregisters_and_compresses {α : Type} [DecidableEq α]
    (s : DisjointSet α) (hs : s.Reachable) (x : α) :
    (getk x (s.find x).2.parent).isSome ∧
    (getk x s.parent = none →
      (s.find x).1 = x ∧ getk x (s.find x).2.parent = some x) ∧
    getk (s.find x).1 (s.find x).2.parent = some (s.find x).1 ∧
    (∀ y ∈ s.chainOf x, getk y (s.find x).2.parent = some (s.find x).1) := by
  have hwf := DisjointSet.dsu_reachable_wf hs
  cases hx : getk x s.parent with
  | none =>
    rw [DisjointSet.find_of_not_mem s x hx,
      DisjointSet.make_set_of_not_mem s x hx]
    have hchain : s.chainOf x = [x] := by
      unfold DisjointSet.chainOf
      rw [DisjointSet.make_set_of_not_mem s x hx]
      simp [DisjointSet.chainAux, getk_setk_self]
    refine ⟨?_, ?_, ?_, ?_⟩
    · simp [getk_setk_self]
    · intro _
      exact ⟨rfl, getk_setk_self x x s.parent⟩
    · exact getk_setk_self x x s.parent
    · intro y hy
      rw [hchain, List.mem_singleton] at hy
      subst hy
      exact getk_setk_self y y s.parent
  | some p =>
    obtain ⟨c, hc, hchain, r, hr, hfst, hrank, hmem, hout⟩ :=
      DisjointSet.find_spec_of_mem hwf (x := x) (by simp [hx])
    have hx_mem_c : x ∈ c := by
      have hh := DisjointSet.chain_head hc
      cases c with
      | nil => exact absurd rfl (DisjointSet.chain_ne_nil hc)
      | cons z zs =>
        simp only [List.head?_cons] at hh
        cases hh
        exact List.mem_cons_self _ _
    refine ⟨?_, ?_, ?_, ?_⟩
    · simp [hmem x hx_mem_c]
    · intro h0
      simp at h0
    · rw [hfst]
      exact hmem r (mem_of_getLast?_eq hr)
    · intro y hy
      rw [hchain] at hy
      rw [hfst]
      exact hmem y hy

/-- Witness for Claim C3 at a concrete state. -/
theorem dsu_find_autoregisters_and_compresses_witness :
    (getk 0 ((DisjointSet.empty (α := Nat)).find 0).2.parent).isSome ∧
    ((DisjointSet.empty (α := Nat)).find 0).1 = 0 := by
  have h := dsu_find_autoregisters_and_compresses (DisjointSet.empty (α := Nat))
    DisjointSet.Reachable.empty 0
  exact ⟨h.1, (h.2.1 rfl).1⟩

/-- Claim C4: for every DisjointSet state and all items `a`, `b`: `union a b`
leaves the parent and rank mappings unchanged — beyond any auto-registration
and path compression done by `find` — when `a` and `b` already have the same
root; otherwise, if the two roots have different ranks, the lower-rank root's
parent becomes the higher-rank root and no rank changes; and on a rank tie,
one root becomes the parent of the other and the new root's rank increases by
exactly one. -/
theorem dsu_union_by_rank {α : Type} [DecidableEq α] (s : DisjointSet α)
    (a b : α) : ∀ (ra : α) (s1 : DisjointSet α) (rb : α) (s2 : DisjointSet α),
    s.find a = (ra, s1) → s1.find b = (rb, s2) →
    ((ra = rb → s.union a b = s2) ∧
     (ra ≠ rb → s2.rankOf ra < s2.rankOf rb →
       getk ra (s.union a b).parent = some rb ∧
       (∀ y, y ≠ ra → getk y (s.union a b).parent = getk y s2.parent) ∧
       (s.union a b).rank = s2.rank) ∧
     (ra ≠ rb → s2.rankOf rb < s2.rankOf ra →
       getk rb (s.union a b).parent = some ra ∧
       (∀ y, y ≠ rb → getk y (s.union a b).parent = getk y s2.parent) ∧
       (s.union a b).rank = s2.rank) ∧
     (ra ≠ rb → s2.rankOf ra = s2.rankOf rb →
       getk rb (s.union a b).parent = some ra ∧
       (∀ y, y ≠ rb → getk y (s.union a b).parent = getk y s2.parent) ∧
       getk ra (s.union a b).rank = some (s2.rankOf ra + 1) ∧
       (∀ y, y ≠ ra → getk y (s.union a b).rank = getk y s2.rank))) := by
  intro ra s1 rb s2 hfa hfb
  have h1 : (s.find a).1 = ra := by rw [hfa]
  have h2 : (s.find a).2 = s1 := by rw [hfa]
  have h3 : (s1.find b).1 = rb := by rw [hfb]
  have h4 : (s1.find b).2 = s2 := by rw [hfb]
  have hu : s.union a b =
      (if ra = rb then s2
       else if s2.rankOf ra < s2.rankOf rb then ⟨setk ra rb s2.parent, s2.rank⟩
       else if s2.rankOf rb < s2.rankOf ra then ⟨setk rb ra s2.parent, s2.rank⟩
       else ⟨setk rb ra s2.parent, setk ra (s2.rankOf ra + 1) s2.rank⟩) := by
    rw [DisjointSet.union_eq_cases, h1, h2, h3, h4]
  refine ⟨?_, ?_, ?_, ?_⟩
  · intro hrr
    rw [hu, if_pos hrr]
  · intro hne hlt
    rw [hu, if_neg hne, if_pos hlt]
    exact ⟨getk_setk_self ra rb s2.parent,
      fun y hy => getk_setk_other ra y rb s2.parent hy, rfl⟩
  · intro hne hlt
    rw [hu, if_neg hne, if_neg (by omega), if_pos hlt]
    exact ⟨getk_setk_self rb ra s2.parent,
      fun y hy => getk_setk_other rb y ra s2.parent hy, rfl⟩
  · intro hne heq
    rw [hu, if_neg hne, if_neg (by omega), if_neg (by omega)]
    exact ⟨getk_setk_self rb ra s2.parent,
      fun y hy => getk_setk_other rb y ra s2.parent hy,
      by rw [getk_setk_self],
      fun y hy => getk_setk_other ra y _ s2.rank hy⟩

/-- Witness for Claim C4 at a concrete state (the rank-tie branch). -/
theorem dsu_union_by_rank_witness :
    getk 1 ((DisjointSet.empty (α := Nat)).union 0 1).parent = some 0 ∧
    getk 0 ((DisjointSet.empty (α := Nat)).union 0 1).rank = some 1 := by
  have h := dsu_union_by_rank (DisjointSet.empty (α := Nat)) 0 1 0
    ⟨[(0, 0)], [(0, 0)]⟩ 1 ⟨[(0, 0), (1, 1)], [(0, 0), (1, 0)]⟩ rfl rfl
  have h4 := h.2.2.2 (by decide) (by decide)
  exact ⟨h4.1, h4.2.2.1⟩

/-- Claim C9: in `union a b`, when the two roots have equal rank the choice of
new root is deterministic: the root of `a`'s set always becomes the new root
and the root of `b`'s set is attached under it. -/
theorem dsu_union_tie_root_is_a {α : Type} [DecidableEq α]
    (s : DisjointSet α) (hs : s.Reachable) (a b : α) :
    (s.find a).1 ≠ ((s.find a).2.find b).1 →
    ((s.find a).2.find b).2.rankOf (s.find a).1 =
      ((s.find a).2.find b).2.rankOf ((s.find a).2.find b).1 →
    getk ((s.find a).2.find b).1 (s.union a b).parent = some (s.find a).1 ∧
    getk (s.find a).1 (s.union a b).parent = some (s.find a).1 := by
  intro hne heq
  have hwf := DisjointSet.dsu_reachable_wf hs
  have hwf1 := DisjointSet.wf_find s a hwf
  have hra_root_s1 := DisjointSet.find_root s a hwf
  have hra_root : getk (s.find a).1 ((s.find a).2.find b).2.parent =
      some (s.find a).1 :=
    DisjointSet.find_keeps_root (s.find a).2 b (s.find a).1 hwf1 hra_root_s1
      (fun h => hne h.symm)
  have hn1 : ¬ ((s.find a).2.find b).2.rankOf (s.find a).1 <
      ((s.find a).2.find b).2.rankOf ((s.find a).2.find b).1 := by
    rw [heq]
    exact lt_irrefl _
  have hn2 : ¬ ((s.find a).2.find b).2.rankOf ((s.find a).2.find b).1 <
      ((s.find a).2.find b).2.rankOf (s.find a).1 := by
    rw [heq]
    exact lt_irrefl _
  rw [DisjointSet.union_eq_cases, if_neg hne, if_neg hn1, if_neg hn2]
  refine ⟨getk_setk_self _ _ _, ?_⟩
  show getk (s.find a).1
    (setk ((s.find a).2.find b).1 (s.find a).1
      ((s.find a).2.find b).2.parent) = some (s.find a).1
  rw [getk_setk_other _ _ _ _ hne]
  exact hra_root

/-- Witness for Claim C9 at a concrete state. -/
theorem dsu_union_tie_root_is_a_witness :
    getk 1 ((DisjointSet.empty (α := Nat)).union 0 1).parent = some 0 ∧
    getk 0 ((DisjointSet.empty (α := Nat)).union 0 1).parent = some 0 :=
  dsu_union_tie_root_is_a DisjointSet.empty DisjointSet.Reachable.empty 0 1
    (by decide) (by decide)

/-! ## Linked lists (`linear.py`)

The Python lists mutate heap nodes through `next`/`prev` references.  The
embedding gives each list an arena: nodes live at addresses allocated in
order, `mem` maps an address to its node record, `head`/`tail` and the node
links store addresses.  Unlinked nodes stay in the arena but become
unreachable, exactly as unreferenced Python objects do. -/

/-- The error kind raised by pop operations on an empty container
(`IndexError` in the Python source). -/
inductive DsError where
  | emptyContainer
deriving DecidableEq

/-- Follow `next` links from a starting address, with fuel. -/
def chainFrom (nxt : Nat → Option Nat) : Option Nat → Nat → List Nat
  | _, 0 => []
  | none, _ => []
  | some i, fuel + 1 => i :: chainFrom nxt (nxt i) fuel

theorem chain'_congr_mem {β : Type} {R S : β → β → Prop} :
    ∀ {c : List β}, (∀ a ∈ c, ∀ b ∈ c, R a b → S a b) →
      List.Chain' R c → List.Chain' S c := by
  intro c
  induction c with
  | nil => exact fun _ _ => List.chain'_nil
  | cons x xs ih =>
    intro himp hch
    cases xs with
    | nil => exact List.chain'_singleton x
    | cons y ys =>
      rw [List.chain'_cons] at hch ⊢
      refine ⟨himp x (by simp) y (by simp) hch.1, ih ?_ hch.2⟩
      intro a ha b hb h
      exact himp a (by simp [ha]) b (by simp [hb]) h

theorem chainFrom_spec (nxt : Nat → Option Nat) :
    ∀ (c : List Nat) (fuel : Nat), c.length ≤ fuel →
      List.Chain' (fun i j => nxt i = some j) c →
      (∀ t, c.getLast? = some t → nxt t = none) →
      chainFrom nxt c.head? fuel = c := by
  intro c
  induction c with
  | nil =>
    intro fuel _ _ _
    cases fuel <;> rfl
  | cons x xs ih =>
    intro fuel hlen hch hlast
    cases fuel with
    | zero => simp at hlen
    | succ f =>
      show x :: chainFrom nxt (nxt x) f = x :: xs
      cases xs with
      | nil =>
        rw [hlast x rfl]
        cases f <;> rfl
      | cons y ys =>
        rw [List.chain'_cons] at hch
        rw [hch.1]
        have hih := ih f (by simp at hlen ⊢; omega) hch.2
          (fun t ht => hlast t (by rw [List.getLast?_cons_cons]; exact ht))
        simpa using hih

theorem exists_append_of_getLast? {β : Type} :
    ∀ {c : List β} {t : β}, c.getLast? = some t → ∃ c', c = c' ++ [t] := by
  intro c
  induction c with
  | nil => intro t h; cases h
  | cons x xs ih =>
    intro t h
    cases xs with
    | nil =>
      cases h
      exact ⟨[], rfl⟩
    | cons y ys =>
      rw [List.getLast?_cons_cons] at h
      obtain ⟨c', hc'⟩ := ih h
      exact ⟨x :: c', by rw [List.cons_append, ← hc']⟩

/-- Source `_SNode`: `value` and `next`. -/
structure SNode (α : Type) where
  value : α
  next : Option Nat

/-- Source `SinglyLinkedList`: `_head`, `_tail`, `_size`, plus the node arena. -/
structure SinglyLinkedList (α : Type) where
  mem : Nat → SNode α
  alloc : Nat
  head : Option Nat
  tail : Option Nat
  size : Nat

namespace SinglyLinkedList

variable {α : Type}

def empty [Inhabited α] : SinglyLinkedList α :=
  ⟨fun _ => ⟨default, none⟩, 0, none, none, 0⟩

/-- Source `prepend`: new head pointing at the old head; tail set when empty. -/
def prepend (l : SinglyLinkedList α) (v : α) : SinglyLinkedList α :=
  let i := l.alloc
  { mem := Function.update l.mem i ⟨v, l.head⟩
    alloc := i + 1
    head := some i
    tail := match l.tail with
      | none => some i
      | some t => some t
    size := l.size + 1 }

/-- Source `append`: fresh node; empty list sets both ends, otherwise the old tail's
`next` is rewritten. -/
def append (l : SinglyLinkedList α) (v : α) : SinglyLinkedList α :=
  let i := l.alloc
  match l.tail with
  | none =>
    { mem := Function.update l.mem i ⟨v, none⟩
      alloc := i + 1
      head := some i
      tail := some i
      size := l.size + 1 }
  | some t =>
    let mem1 := Function.update l.mem i ⟨v, none⟩
    { mem := Function.update mem1 t ⟨(mem1 t).value, some i⟩
      alloc := i + 1
      head := l.head
      tail := some i
      size := l.size + 1 }

/-- Source `pop_front`: raises on an empty list before any mutation; otherwise the
head moves to its successor and the tail is cleared when the list empties. -/
def pop_front (l : SinglyLinkedList α) :
    Except DsError α × SinglyLinkedList α :=
  match l.head with
  | none => (.error .emptyContainer, l)
  | some h =>
    let nd := l.mem h
    (.ok nd.value,
     { l with
        head := nd.next
        tail := match nd.next with
          | none => none
          | some _ => l.tail
        size := l.size - 1 })

/-- States reachable through the public operations. -/
inductive Reachable [Inhabited α] : SinglyLinkedList α → Prop where
  | empty : Reachable empty
  | prepend (l v) : Reachable l → Reachable (l.prepend v)
  | append (l v) : Reachable l → Reachable (l.append v)
  | pop_front (l) : Reachable l → Reachable (l.pop_front).2

/-- Chain predicate: `c` lists the live node addresses from head to tail. -/
def IsChainOf (l : SinglyLinkedList α) (c : List Nat) : Prop :=
  (∀ i ∈ c, i < l.alloc) ∧ c.Nodup ∧
  l.head = c.head? ∧ l.tail = c.getLast? ∧ l.size = c.length ∧
  List.Chain' (fun i j => (l.mem i).next = some j) c ∧
  (∀ t, c.getLast? = some t → (l.mem t).next = none)

def WF (l : SinglyLinkedList α) : Prop := ∃ c, l.IsChainOf c

end SinglyLinkedList

theorem getLast?_isSome_of_ne_nil {β : Type} {c : List β} (h : c ≠ []) :
    ∃ t, c.getLast? = some t :=
  ⟨c.getLast h, List.getLast?_eq_getLast_of_ne_nil h⟩

namespace SinglyLinkedList

variable {α : Type}

theorem sll_wf_empty [Inhabited α] : (empty : SinglyLinkedList α).WF := by
  refine ⟨[], ?_, List.nodup_nil, rfl, rfl, rfl, List.chain'_nil, ?_⟩
  · intro i hi
    cases hi
  · intro t ht
    cases ht

theorem sll_wf_prepend (l : SinglyLinkedList α) (v : α) (hw : l.WF) :
    (l.prepend v).WF := by
  obtain ⟨c, hb, hnd, hh, ht, hs, hch, hlast⟩ := hw
  have hic : l.alloc ∉ c := fun hic => lt_irrefl _ (hb _ hic)
  refine ⟨l.alloc :: c, ?_, List.nodup_cons.mpr ⟨hic, hnd⟩, rfl, ?_, ?_, ?_, ?_⟩
  · intro i hi
    rcases List.mem_cons.mp hi with rfl | hi'
    · show l.alloc < l.alloc + 1
      omega
    · have := hb i hi'
      show i < l.alloc + 1
      omega
  · show (match l.tail with | none => some l.alloc | some t => some t) =
      (l.alloc :: c).getLast?
    cases c with
    | nil =>
      have h0 : l.tail = none := by simpa using ht
      rw [h0]
      simp
    | cons z zs =>
      obtain ⟨t, hzt⟩ := getLast?_isSome_of_ne_nil (c := z :: zs) (by simp)
      rw [ht, hzt, List.getLast?_cons_cons, hzt]
  · show l.size + 1 = (l.alloc :: c).length
    rw [hs]
    rfl
  · cases c with
    | nil => exact List.chain'_singleton _
    | cons z zs =>
      rw [List.chain'_cons]
      constructor
      · show (Function.update l.mem l.alloc ⟨v, l.head⟩ l.alloc).next = some z
        rw [Function.update_same]
        show l.head = some z
        rw [hh]
        rfl
      · refine chain'_congr_mem ?_ hch
        intro a ha b hb' hab
        have hai : a ≠ l.alloc := fun h => hic (h ▸ ha)
        show (Function.update l.mem l.alloc ⟨v, l.head⟩ a).next = some b
        rw [Function.update_noteq hai]
        exact hab
  · intro t hT
    cases c with
    | nil =>
      cases hT
      show (Function.update l.mem l.alloc ⟨v, l.head⟩ l.alloc).next = none
      rw [Function.update_same]
      show l.head = none
      rw [hh]
      rfl
    | cons z zs =>
      rw [List.getLast?_cons_cons] at hT
      have htc : t ∈ z :: zs := mem_of_getLast?_eq hT
      have hti : t ≠ l.alloc := fun h => hic (h ▸ htc)
      show (Function.update l.mem l.alloc ⟨v, l.head⟩ t).next = none
      rw [Function.update_noteq hti]
      exact hlast t hT

theorem sll_wf_append (l : SinglyLinkedList α) (v : α) (hw : l.WF) :
    (l.append v).WF := by
  obtain ⟨c, hb, hnd, hh, ht, hs, hch, hlast⟩ := hw
  have hic : l.alloc ∉ c := fun hic => lt_irrefl _ (hb _ hic)
  cases htl : l.tail with
  | none =>
    have hc : c = [] := by
      cases c with
      | nil => rfl
      | cons z zs =>
        obtain ⟨t, hzt⟩ := getLast?_isSome_of_ne_nil (c := z :: zs) (by simp)
        rw [htl, hzt] at ht
        cases ht
    subst hc
    have he : l.append v =
        ⟨Function.update l.mem l.alloc ⟨v, none⟩, l.alloc + 1,
         some l.alloc, some l.alloc, l.size + 1⟩ := by
      simp [append, htl]
    rw [he]
    refine ⟨[l.alloc], ?_, List.nodup_singleton _, rfl, rfl, ?_, ?_, ?_⟩
    · intro i hi
      rw [List.mem_singleton] at hi
      subst hi
      show l.alloc < l.alloc + 1
      omega
    · show l.size + 1 = 1
      rw [hs]
      rfl
    · exact List.chain'_singleton _
    · intro t' ht'
      cases ht'
      show (Function.update l.mem l.alloc ⟨v, none⟩ l.alloc).next = none
      rw [Function.update_same]
  | some t =>
    have hct : c.getLast? = some t := by rw [← ht, htl]
    have hcne : c ≠ [] := fun h => by rw [h] at hct; cases hct
    obtain ⟨z, zs, hczz⟩ := List.exists_cons_of_ne_nil hcne
    have htc : t ∈ c := mem_of_getLast?_eq hct
    have htne : t ≠ l.alloc := fun h => hic (h ▸ htc)
    have he : l.append v =
        ⟨Function.update (Function.update l.mem l.alloc ⟨v, none⟩) t
           ⟨(Function.update l.mem l.alloc ⟨v, none⟩ t).value, some l.alloc⟩,
         l.alloc + 1, l.head, some l.alloc, l.size + 1⟩ := by
      simp [append, htl]
    rw [he]
    refine ⟨c ++ [l.alloc], ?_, ?_, ?_, ?_, ?_, ?_, ?_⟩
    · intro i hi
      rcases List.mem_append.mp hi with hi' | hi'
      · have := hb i hi'
        show i < l.alloc + 1
        omega
      · rw [List.mem_singleton] at hi'
        subst hi'
        show l.alloc < l.alloc + 1
        omega
    · rw [List.nodup_append]
      refine ⟨hnd, List.nodup_singleton _, ?_⟩
      intro a ha hb'
      rw [List.mem_singleton] at hb'
      subst hb'
      exact hic ha
    · show l.head = (c ++ [l.alloc]).head?
      rw [hczz] at hh ⊢
      rw [hh]
      rfl
    · exact (List.getLast?_concat _).symm
    · show l.size + 1 = (c ++ [l.alloc]).length
      rw [hs]
      simp
    · rw [List.chain'_append]
      refine ⟨?_, List.chain'_singleton _, ?_⟩
      · refine chain'_congr_mem ?_ hch
        intro a ha b hb' hab
        have hat : a ≠ t := by
          intro hEq
          subst hEq
          rw [hlast a hct] at hab
          cases hab
        have hai : a ≠ l.alloc := fun h => hic (h ▸ ha)
        show (Function.update (Function.update l.mem l.alloc ⟨v, none⟩) t
          ⟨(Function.update l.mem l.alloc ⟨v, none⟩ t).value, some l.alloc⟩
            a).next = some b
        rw [Function.update_noteq hat, Function.update_noteq hai]
        exact hab
      · intro x hx y hy
        rw [hct] at hx
        rw [List.head?_cons] at hy
        cases hx
        cases hy
        show (Function.update (Function.update l.mem l.alloc ⟨v, none⟩) t
          ⟨(Function.update l.mem l.alloc ⟨v, none⟩ t).value, some l.alloc⟩
            t).next = some l.alloc
        rw [Function.update_same]
    · intro t' ht'
      rw [List.getLast?_concat] at ht'
      cases ht'
      show (Function.update (Function.update l.mem l.alloc ⟨v, none⟩) t
        ⟨(Function.update l.mem l.alloc ⟨v, none⟩ t).value, some l.alloc⟩
          l.alloc).next = none
      rw [Function.update_noteq (Ne.symm htne), Function.update_same]

theorem sll_wf_pop_front (l : SinglyLinkedList α) (hw : l.WF) :
    (l.pop_front).2.WF := by
  obtain ⟨c, hb, hnd, hh, ht, hs, hch, hlast⟩ := hw
  cases hhd : l.head with
  | none =>
    have he : l.pop_front = (.error .emptyContainer, l) := by
      simp [pop_front, hhd]
    rw [he]
    exact ⟨c, hb, hnd, hh, ht, hs, hch, hlast⟩
  | some h =>
    cases c with
    | nil =>
      rw [hhd] at hh
      cases hh
    | cons z zs =>
      rw [hhd] at hh
      have hz : h = z := Option.some.inj hh
      subst hz
      cases hnx : (l.mem h).next with
      | none =>
        have hzs : zs = [] := by
          cases zs with
          | nil => rfl
          | cons w ws =>
            rw [List.chain'_cons] at hch
            rw [hnx] at hch
            cases hch.1
        subst hzs
        have he : l.pop_front =
            (.ok (l.mem h).value, ⟨l.mem, l.alloc, none, none, l.size - 1⟩) := by
          simp [pop_front, hhd, hnx]
        rw [he]
        refine ⟨[], ?_, List.nodup_nil, rfl, rfl, ?_, List.chain'_nil, ?_⟩
        · intro i hi
          cases hi
        · show l.size - 1 = 0
          rw [hs]
          rfl
        · intro t' ht'
          cases ht'
      | some b =>
        cases zs with
        | nil =>
          rw [hlast h rfl] at hnx
          cases hnx
        | cons w ws =>
          rw [List.chain'_cons] at hch
          have hbw : b = w := by
            have h1 := hch.1
            rw [hnx] at h1
            exact Option.some.inj h1
          subst hbw
          have he : l.pop_front =
              (.ok (l.mem h).value,
               ⟨l.mem, l.alloc, some b, l.tail, l.size - 1⟩) := by
            simp [pop_front, hhd, hnx]
          rw [he]
          refine ⟨b :: ws, ?_, ?_, rfl, ?_, ?_, hch.2, ?_⟩
          · intro i hi
            exact hb i (List.mem_cons_of_mem h hi)
          · exact (List.nodup_cons.mp hnd).2
          · show l.tail = (b :: ws).getLast?
            rw [ht, List.getLast?_cons_cons]
          · show l.size - 1 = (b :: ws).length
            rw [hs]
            rfl
          · intro t' ht'
            exact hlast t' (by rw [List.getLast?_cons_cons]; exact ht')

theorem sll_reachable_wf [Inhabited α] {l : SinglyLinkedList α}
    (h : l.Reachable) : l.WF := by
  induction h with
  | empty => exact sll_wf_empty
  | prepend l v _ ih => exact sll_wf_prepend l v ih
  | append l v _ ih => exact sll_wf_append l v ih
  | pop_front l _ ih => exact sll_wf_pop_front l ih

end SinglyLinkedList

/-- Source `_DNode`: `value`, `prev`, `next`. -/
structure DNode (α : Type) where
  value : α
  prev : Option Nat
  next : Option Nat

/-- Source `DoublyLinkedList`: `_head`, `_tail`, `_size`, plus the node arena. -/
structure DoublyLinkedList (α : Type) where
  mem : Nat → DNode α
  alloc : Nat
  head : Option Nat
  tail : Option Nat
  size : Nat

namespace DoublyLinkedList

variable {α : Type}

def empty [Inhabited α] : DoublyLinkedList α :=
  ⟨fun _ => ⟨default, none, none⟩, 0, none, none, 0⟩

/-- Source `append`: fresh node; empty list sets both ends, otherwise the new node's
`prev` and the old tail's `next` are linked. -/
def append (l : DoublyLinkedList α) (v : α) : DoublyLinkedList α :=
  let i := l.alloc
  match l.tail with
  | none =>
    { mem := Function.update l.mem i ⟨v, none, none⟩
      alloc := i + 1
      head := some i
      tail := some i
      size := l.size + 1 }
  | some t =>
    let mem1 := Function.update l.mem i ⟨v, some t, none⟩
    { mem := Function.update mem1 t ⟨(mem1 t).value, (mem1 t).prev, some i⟩
      alloc := i + 1
      head := l.head
      tail := some i
      size := l.size + 1 }

/-- Source `prepend`: mirror of `append` at the head end. -/
def prepend (l : DoublyLinkedList α) (v : α) : DoublyLinkedList α :=
  let i := l.alloc
  match l.head with
  | none =>
    { mem := Function.update l.mem i ⟨v, none, none⟩
      alloc := i + 1
      head := some i
      tail := some i
      size := l.size + 1 }
  | some h =>
    let mem1 := Function.update l.mem i ⟨v, none, some h⟩
    { mem := Function.update mem1 h ⟨(mem1 h).value, some i, (mem1 h).next⟩
      alloc := i + 1
      head := some i
      tail := l.tail
      size := l.size + 1 }

/-- Source `pop_front`: raises on an empty list before any mutation; otherwise the
head moves forward and the new head's `prev` is nulled (or the tail cleared
when the list empties). -/
def pop_front (l : DoublyLinkedList α) :
    Except DsError α × DoublyLinkedList α :=
  match l.head with
  | none => (.error .emptyContainer, l)
  | some h =>
    let nd := l.mem h
    match nd.next with
    | none =>
      (.ok nd.value, { l with head := none, tail := none, size := l.size - 1 })
    | some h2 =>
      (.ok nd.value,
       { l with
          mem := Function.update l.mem h2
            ⟨(l.mem h2).value, none, (l.mem h2).next⟩
          head := some h2
          size := l.size - 1 })

/-- Source `pop_back`: mirror of `pop_front` at the tail end. -/
def pop_back (l : DoublyLinkedList α) :
    Except DsError α × DoublyLinkedList α :=
  match l.tail with
  | none => (.error .emptyContainer, l)
  | some t =>
    let nd := l.mem t
    match nd.prev with
    | none =>
      (.ok nd.value, { l with head := none, tail := none, size := l.size - 1 })
    | some t2 =>
      (.ok nd.value,
       { l with
          mem := Function.update l.mem t2
            ⟨(l.mem t2).value, (l.mem t2).prev, none⟩
          tail := some t2
          size := l.size - 1 })

/-- States reachable through the public operations. -/
inductive Reachable [Inhabited α] : DoublyLinkedList α → Prop where
  | empty : Reachable empty
  | append (l v) : Reachable l → Reachable (l.append v)
  | prepend (l v) : Reachable l → Reachable (l.prepend v)
  | pop_front (l) : Reachable l → Reachable (l.pop_front).2
  | pop_back (l) : Reachable l → Reachable (l.pop_back).2

/-- Chain predicate: `c` lists the live node addresses from head to tail; consecutive nodes are
symmetrically linked and the two outward links are null. -/
def IsChainOf (l : DoublyLinkedList α) (c : List Nat) : Prop :=
  (∀ i ∈ c, i < l.alloc) ∧ c.Nodup ∧
  l.head = c.head? ∧ l.tail = c.getLast? ∧ l.size = c.length ∧
  List.Chain' (fun i j => (l.mem i).next = some j ∧ (l.mem j).prev = some i) c ∧
  (∀ h, c.head? = some h → (l.mem h).prev = none) ∧
  (∀ t, c.getLast? = some t → (l.mem t).next = none)

def WF (l : DoublyLinkedList α) : Prop := ∃ c, l.IsChainOf c

theorem dll_wf_empty [Inhabited α] : (empty : DoublyLinkedList α).WF := by
  refine ⟨[], ?_, List.nodup_nil, rfl, rfl, rfl, List.chain'_nil, ?_, ?_⟩
  · intro i hi
    cases hi
  · intro h0 hh0
    cases hh0
  · intro t ht
    cases ht

theorem dll_wf_append (l : DoublyLinkedList α) (v : α) (hw : l.WF) :
    (l.append v).WF := by
  obtain ⟨c, hb, hnd, hh, ht, hs, hch, hhp, hlast⟩ := hw
  have hic : l.alloc ∉ c := fun hic => lt_irrefl _ (hb _ hic)
  cases htl : l.tail with
  | none =>
    have hc : c = [] := by
      cases c with
      | nil => rfl
      | cons z zs =>
        obtain ⟨t, hzt⟩ := getLast?_isSome_of_ne_nil (c := z :: zs) (by simp)
        rw [htl, hzt] at ht
        cases ht
    subst hc
    have he : l.append v =
        ⟨Function.update l.mem l.alloc ⟨v, none, none⟩, l.alloc + 1,
         some l.alloc, some l.alloc, l.size + 1⟩ := by
      simp [append, htl]
    rw [he]
    refine ⟨[l.alloc], ?_, List.nodup_singleton _, rfl, rfl, ?_,
      List.chain'_singleton _, ?_, ?_⟩
    · intro i hi
      rw [List.mem_singleton] at hi
      subst hi
      show l.alloc < l.alloc + 1
      omega
    · show l.size + 1 = 1
      rw [hs]
      rfl
    · intro h0 hh0
      cases hh0
      show (Function.update l.mem l.alloc ⟨v, none, none⟩ l.alloc).prev = none
      rw [Function.update_same]
    · intro t' ht'
      cases ht'
      show (Function.update l.mem l.alloc ⟨v, none, none⟩ l.alloc).next = none
      rw [Function.update_same]
  | some t =>
    have hct : c.getLast? = some t := by rw [← ht, htl]
    have hcne : c ≠ [] := fun h => by rw [h] at hct; cases hct
    obtain ⟨z, zs, hczz⟩ := List.exists_cons_of_ne_nil hcne
    have htc : t ∈ c := mem_of_getLast?_eq hct
    have htne : t ≠ l.alloc := fun h => hic (h ▸ htc)
    set m1 := Function.update l.mem l.alloc ⟨v, some t, none⟩ with hm1
    set m2 := Function.update m1 t ⟨(m1 t).value, (m1 t).prev, some l.alloc⟩
      with hm2
    have he : l.append v = ⟨m2, l.alloc + 1, l.head, some l.alloc, l.size + 1⟩ := by
      simp [append, htl, hm1, hm2]
    have hm2_other : ∀ j, j ≠ t → j ≠ l.alloc → m2 j = l.mem j := by
      intro j hjt hja
      rw [hm2, Function.update_noteq hjt, hm1, Function.update_noteq hja]
    have hm2_t_next : (m2 t).next = some l.alloc := by
      rw [hm2, Function.update_same]
    have hm2_t_prev : (m2 t).prev = (l.mem t).prev := by
      rw [hm2, Function.update_same]
      show (m1 t).prev = _
      rw [hm1, Function.update_noteq htne]
    have hm2_i : m2 l.alloc = ⟨v, some t, none⟩ := by
      rw [hm2, Function.update_noteq (Ne.symm htne), hm1, Function.update_same]
    rw [he]
    refine ⟨c ++ [l.alloc], ?_, ?_, ?_, ?_, ?_, ?_, ?_, ?_⟩
    · intro i hi
      rcases List.mem_append.mp hi with hi' | hi'
      · have := hb i hi'
        show i < l.alloc + 1
        omega
      · rw [List.mem_singleton] at hi'
        subst hi'
        show l.alloc < l.alloc + 1
        omega
    · rw [List.nodup_append]
      refine ⟨hnd, List.nodup_singleton _, ?_⟩
      intro a ha hb'
      rw [List.mem_singleton] at hb'
      subst hb'
      exact hic ha
    · show l.head = (c ++ [l.alloc]).head?
      rw [hczz] at hh ⊢
      rw [hh]
      rfl
    · exact (List.getLast?_concat _).symm
    · show l.size + 1 = (c ++ [l.alloc]).length
      rw [hs]
      simp
    · rw [List.chain'_append]
      refine ⟨?_, List.chain'_singleton _, ?_⟩
      · refine chain'_congr_mem ?_ hch
        intro a ha b hb' hab
        have hat : a ≠ t := by
          intro hEq
          subst hEq
          rw [hlast a hct] at hab
          cases hab.1
        have hai : a ≠ l.alloc := fun h => hic (h ▸ ha)
        have hbi : b ≠ l.alloc := fun h => hic (h ▸ hb')
        constructor
        · show (m2 a).next = some b
          rw [hm2_other a hat hai]
          exact hab.1
        · show (m2 b).prev = some a
          by_cases hbt : b = t
          · subst hbt
            rw [hm2_t_prev]
            exact hab.2
          · rw [hm2_other b hbt hbi]
            exact hab.2
      · intro x hx y hy
        rw [hct] at hx
        rw [List.head?_cons] at hy
        cases hx
        cases hy
        exact ⟨hm2_t_next, by show (m2 l.alloc).prev = some t; rw [hm2_i]⟩
    · intro h0 hh0
      rw [hczz] at hh0
      rw [List.cons_append, List.head?_cons] at hh0
      cases hh0
      show (m2 z).prev = none
      by_cases hzt : z = t
      · subst hzt
        rw [hm2_t_prev]
        exact hhp z (by simp [hczz])
      · have hzi : z ≠ l.alloc := fun h => hic (h ▸ (hczz ▸ List.mem_cons_self z zs))
        rw [hm2_other z hzt hzi]
        exact hhp z (by simp [hczz])
    · intro t' ht'
      rw [List.getLast?_concat] at ht'
      cases ht'
      show (m2 l.alloc).next = none
      rw [hm2_i]

theorem dll_wf_prepend (l : DoublyLinkedList α) (v : α) (hw : l.WF) :
    (l.prepend v).WF := by
  obtain ⟨c, hb, hnd, hh, ht, hs, hch, hhp, hlast⟩ := hw
  have hic : l.alloc ∉ c := fun hic => lt_irrefl _ (hb _ hic)
  cases hhd : l.head with
  | none =>
    have hc : c = [] := by
      cases c with
      | nil => rfl
      | cons z zs =>
        rw [hhd] at hh
        cases hh
    subst hc
    have he : l.prepend v =
        ⟨Function.update l.mem l.alloc ⟨v, none, none⟩, l.alloc + 1,
         some l.alloc, some l.alloc, l.size + 1⟩ := by
      simp [prepend, hhd]
    rw [he]
    refine ⟨[l.alloc], ?_, List.nodup_singleton _, rfl, rfl, ?_,
      List.chain'_singleton _, ?_, ?_⟩
    · intro i hi
      rw [List.mem_singleton] at hi
      subst hi
      show l.alloc < l.alloc + 1
      omega
    · show l.size + 1 = 1
      rw [hs]
      rfl
    · intro h0 hh0
      cases hh0
      show (Function.update l.mem l.alloc ⟨v, none, none⟩ l.alloc).prev = none
      rw [Function.update_same]
    · intro t' ht'
      cases ht'
      show (Function.update l.mem l.alloc ⟨v, none, none⟩ l.alloc).next = none
      rw [Function.update_same]
  | some h =>
    have hch0 : c.head? = some h := by rw [← hh, hhd]
    have hcne : c ≠ [] := fun hEq => by rw [hEq] at hch0; cases hch0
    obtain ⟨z, zs, hczz⟩ := List.exists_cons_of_ne_nil hcne
    have hzh : z = h := by
      rw [hczz] at hch0
      exact Option.some.inj hch0
    subst hzh
    have hhc : z ∈ c := by rw [hczz]; exact List.mem_cons_self _ _
    have hhne : z ≠ l.alloc := fun hEq => hic (hEq ▸ hhc)
    set m1 := Function.update l.mem l.alloc ⟨v, none, some z⟩ with hm1
    set m2 := Function.update m1 z ⟨(m1 z).value, some l.alloc, (m1 z).next⟩
      with hm2
    have he : l.prepend v = ⟨m2, l.alloc + 1, some l.alloc, l.tail, l.size + 1⟩ := by
      simp [prepend, hhd, hm1, hm2]
    have hm2_other : ∀ j, j ≠ z → j ≠ l.alloc → m2 j = l.mem j := by
      intro j hjz hja
      rw [hm2, Function.update_noteq hjz, hm1, Function.update_noteq hja]
    have hm2_h_prev : (m2 z).prev = some l.alloc := by
      rw [hm2, Function.update_same]
    have hm2_h_next : (m2 z).next = (l.mem z).next := by
      rw [hm2, Function.update_same]
      show (m1 z).next = _
      rw [hm1, Function.update_noteq hhne]
    have hm2_i : m2 l.alloc = ⟨v, none, some z⟩ := by
      rw [hm2, Function.update_noteq (Ne.symm hhne), hm1, Function.update_same]
    rw [he]
    refine ⟨l.alloc :: c, ?_, List.nodup_cons.mpr ⟨hic, hnd⟩, rfl, ?_, ?_, ?_,
      ?_, ?_⟩
    · intro i hi
      rcases List.mem_cons.mp hi with rfl | hi'
      · show l.alloc < l.alloc + 1
        omega
      · have := hb i hi'
        show i < l.alloc + 1
        omega
    · show l.tail = (l.alloc :: c).getLast?
      rw [hczz] at ht ⊢
      rw [ht, List.getLast?_cons_cons]
    · show l.size + 1 = (l.alloc :: c).length
      rw [hs]
      rfl
    · rw [hczz]
      rw [List.chain'_cons]
      constructor
      · constructor
        · show (m2 l.alloc).next = some z
          rw [hm2_i]
        · exact hm2_h_prev
      · refine chain'_congr_mem ?_ (hczz ▸ hch)
        intro a ha b hb' hab
        have hai : a ≠ l.alloc := fun hEq => hic (hEq ▸ (hczz ▸ ha))
        have hbi : b ≠ l.alloc := fun hEq => hic (hEq ▸ (hczz ▸ hb'))
        have hbz : b ≠ z := by
          intro hEq
          subst hEq
          rw [hhp b hch0] at hab
          cases hab.2
        constructor
        · show (m2 a).next = some b
          by_cases haz : a = z
          · subst haz
            rw [hm2_h_next]
            exact hab.1
          · rw [hm2_other a haz hai]
            exact hab.1
        · show (m2 b).prev = some a
          rw [hm2_other b hbz hbi]
          exact hab.2
    · intro h0 hh0
      cases hh0
      show (m2 l.alloc).prev = none
      rw [hm2_i]
    · intro t' ht'
      rw [hczz, List.getLast?_cons_cons] at ht'
      have ht'c : t' ∈ c := by
        rw [hczz]
        exact mem_of_getLast?_eq ht'
      have ht'i : t' ≠ l.alloc := fun hEq => hic (hEq ▸ ht'c)
      show (m2 t').next = none
      have hlc : c.getLast? = some t' := by
        rw [hczz]
        exact ht'
      by_cases ht'z : t' = z
      · subst ht'z
        rw [hm2_h_next]
        exact hlast t' hlc
      · rw [hm2_other t' ht'z ht'i]
        exact hlast t' hlc

theorem dll_wf_pop_front (l : DoublyLinkedList α) (hw : l.WF) :
    (l.pop_front).2.WF := by
  obtain ⟨c, hb, hnd, hh, ht, hs, hch, hhp, hlast⟩ := hw
  cases hhd : l.head with
  | none =>
    have he : l.pop_front = (.error .emptyContainer, l) := by
      simp [pop_front, hhd]
    rw [he]
    exact ⟨c, hb, hnd, hh, ht, hs, hch, hhp, hlast⟩
  | some h =>
    cases c with
    | nil =>
      rw [hhd] at hh
      cases hh
    | cons z zs =>
      rw [hhd] at hh
      have hz : h = z := Option.some.inj hh
      subst hz
      cases hnx : (l.mem h).next with
      | none =>
        have hzs : zs = [] := by
          cases zs with
          | nil => rfl
          | cons w ws =>
            rw [List.chain'_cons] at hch
            rw [hnx] at hch
            cases hch.1.1
        subst hzs
        have he : l.pop_front =
            (.ok (l.mem h).value,
             ⟨l.mem, l.alloc, none, none, l.size - 1⟩) := by
          simp [pop_front, hhd, hnx]
        rw [he]
        refine ⟨[], ?_, List.nodup_nil, rfl, rfl, ?_, List.chain'_nil, ?_, ?_⟩
        · intro i hi
          cases hi
        · show l.size - 1 = 0
          rw [hs]
          rfl
        · intro h0 hh0
          cases hh0
        · intro t' ht'
          cases ht'
      | some b =>
        cases zs with
        | nil =>
          rw [hlast h rfl] at hnx
          cases hnx
        | cons w ws =>
          rw [List.chain'_cons] at hch
          have hbw : b = w := by
            have h1 := hch.1.1
            rw [hnx] at h1
            exact Option.some.inj h1
          subst hbw
          set m' := Function.update l.mem b
            ⟨(l.mem b).value, none, (l.mem b).next⟩ with hm'
          have he : l.pop_front =
              (.ok (l.mem h).value,
               ⟨m', l.alloc, some b, l.tail, l.size - 1⟩) := by
            simp [pop_front, hhd, hnx, hm']
          rw [he]
          have hm'_other : ∀ j, j ≠ b → m' j = l.mem j := fun j hj => by
            rw [hm', Function.update_noteq hj]
          have hm'_b_prev : (m' b).prev = none := by
            rw [hm', Function.update_same]
          have hm'_next : ∀ j, (m' j).next = (l.mem j).next := by
            intro j
            by_cases hj : j = b
            · subst hj
              rw [hm', Function.update_same]
            · rw [hm'_other j hj]
          have hhzs : h ∉ b :: ws := (List.nodup_cons.mp hnd).1
          refine ⟨b :: ws, ?_, (List.nodup_cons.mp hnd).2, rfl, ?_, ?_, ?_,
            ?_, ?_⟩
          · intro i hi
            exact hb i (List.mem_cons_of_mem h hi)
          · show l.tail = (b :: ws).getLast?
            rw [ht, List.getLast?_cons_cons]
          · show l.size - 1 = (b :: ws).length
            rw [hs]
            rfl
          · refine chain'_congr_mem ?_ hch.2
            intro a ha b2 hb2 hab
            constructor
            · show (m' a).next = some b2
              rw [hm'_next a]
              exact hab.1
            · show (m' b2).prev = some a
              by_cases hb2b : b2 = b
              · subst hb2b
                exfalso
                have hah : a = h := Option.some.inj (hab.2.symm.trans hch.1.2)
                exact hhzs (hah ▸ ha)
              · rw [hm'_other b2 hb2b]
                exact hab.2
          · intro h0 hh0
            cases hh0
            exact hm'_b_prev
          · intro t' ht'
            show (m' t').next = none
            rw [hm'_next t']
            exact hlast t' (by rw [List.getLast?_cons_cons]; exact ht')

theorem dll_wf_pop_back (l : DoublyLinkedList α) (hw : l.WF) :
    (l.pop_back).2.WF := by
  obtain ⟨c, hb, hnd, hh, ht, hs, hch, hhp, hlast⟩ := hw
  cases htl : l.tail with
  | none =>
    have he : l.pop_back = (.error .emptyContainer, l) := by
      simp [pop_back, htl]
    rw [he]
    exact ⟨c, hb, hnd, hh, ht, hs, hch, hhp, hlast⟩
  | some t =>
    have hct : c.getLast? = some t := by rw [← ht, htl]
    obtain ⟨c', rfl⟩ := exists_append_of_getLast? hct
    cases hpv : (l.mem t).prev with
    | none =>
      cases c' with
      | cons z zs =>
        exfalso
        rw [List.chain'_append] at hch
        obtain ⟨t2', ht2⟩ := getLast?_isSome_of_ne_nil (c := z :: zs) (by simp)
        have hj := hch.2.2 t2' ht2 t rfl
        rw [hpv] at hj
        cases hj.2
      | nil =>
        have he : l.pop_back =
            (.ok (l.mem t).value,
             ⟨l.mem, l.alloc, none, none, l.size - 1⟩) := by
          simp [pop_back, htl, hpv]
        rw [he]
        refine ⟨[], ?_, List.nodup_nil, rfl, rfl, ?_, List.chain'_nil, ?_, ?_⟩
        · intro i hi
          cases hi
        · show l.size - 1 = 0
          rw [hs]
          rfl
        · intro h0 hh0
          cases hh0
        · intro t' ht'
          cases ht'
    | some t2 =>
      have hc'ne : c' ≠ [] := by
        intro h0
        subst h0
        have := hhp t rfl
        rw [hpv] at this
        cases this
      obtain ⟨z, zs, hczz⟩ := List.exists_cons_of_ne_nil hc'ne
      rw [List.chain'_append] at hch
      obtain ⟨w, hw⟩ := getLast?_isSome_of_ne_nil hc'ne
      have hjun := hch.2.2 w hw t rfl
      have hwt2 : w = t2 := by
        have h1 := hjun.2
        rw [hpv] at h1
        exact (Option.some.inj h1).symm
      subst hwt2
      have ht2c' : w ∈ c' := mem_of_getLast?_eq hw
      have htnc' : t ∉ c' := fun hmem' =>
        (List.nodup_append.mp hnd).2.2 hmem' (List.mem_singleton_self t)
      set m' := Function.update l.mem w
        ⟨(l.mem w).value, (l.mem w).prev, none⟩ with hm'
      have he : l.pop_back =
          (.ok (l.mem t).value, ⟨m', l.alloc, l.head, some w, l.size - 1⟩) := by
        simp [pop_back, htl, hpv, hm']
      rw [he]
      have hm'_other : ∀ j, j ≠ w → m' j = l.mem j := fun j hj => by
        rw [hm', Function.update_noteq hj]
      have hm'_t2_next : (m' w).next = none := by
        rw [hm', Function.update_same]
      have hm'_prev : ∀ j, (m' j).prev = (l.mem j).prev := by
        intro j
        by_cases hj : j = w
        · subst hj
          rw [hm', Function.update_same]
        · rw [hm'_other j hj]
      refine ⟨c', ?_, (List.nodup_append.mp hnd).1, ?_, hw.symm, ?_, ?_, ?_, ?_⟩
      · intro i hi
        exact hb i (List.mem_append_left _ hi)
      · show l.head = c'.head?
        rw [hczz] at hh ⊢
        rw [hh]
        rfl
      · show l.size - 1 = c'.length
        rw [hs]
        simp
      · refine chain'_congr_mem ?_ hch.1
        intro a ha b2 hb2 hab
        constructor
        · show (m' a).next = some b2
          by_cases hat2 : a = w
          · subst hat2
            exfalso
            have h1 := hjun.1
            rw [hab.1] at h1
            exact htnc' ((Option.some.inj h1) ▸ hb2)
          · rw [hm'_other a hat2]
            exact hab.1
        · show (m' b2).prev = some a
          rw [hm'_prev b2]
          exact hab.2
      · intro h0 hh0
        show (m' h0).prev = none
        rw [hm'_prev h0]
        refine hhp h0 ?_
        rw [hczz] at hh0 ⊢
        simpa using hh0
      · intro t' ht'
        rw [hw] at ht'
        cases ht'
        exact hm'_t2_next

theorem dll_reachable_wf [Inhabited α] {l : DoublyLinkedList α}
    (h : l.Reachable) : l.WF := by
  induction h with
  | empty => exact dll_wf_empty
  | append l v _ ih => exact dll_wf_append l v ih
  | prepend l v _ ih => exact dll_wf_prepend l v ih
  | pop_front l _ ih => exact dll_wf_pop_front l ih
  | pop_back l _ ih => exact dll_wf_pop_back l ih

end DoublyLinkedList

/-- Claim C2: for every DoublyLinkedList state reachable by any sequence of
`append`, `prepend`, `pop_front` and `pop_back` operations, the
symmetric-linkage invariant holds: whenever the `next` link of node A is node
B, the `prev` link of B is A, and at the two ends of the list the
outward-facing link (head's `prev`, tail's `next`) is null; every mutation
re-establishes this invariant (the reachability closure quantifies over all
mutation sequences). -/
theorem dll_symmetric_linkage {α : Type} [Inhabited α]
    (l : DoublyLinkedList α) (hl : l.Reachable) :
    List.Chain' (fun i j => (l.mem i).next = some j ∧ (l.mem j).prev = some i)
      (chainFrom (fun i => (l.mem i).next) l.head (l.size + 1)) ∧
    (∀ h, l.head = some h → (l.mem h).prev = none) ∧
    (∀ t, l.tail = some t → (l.mem t).next = none) := by
  obtain ⟨c, hb, hnd, hh, ht, hs, hch, hhp, hlast⟩ :=
    DoublyLinkedList.dll_reachable_wf hl
  have hcf : chainFrom (fun i => (l.mem i).next) l.head (l.size + 1) = c := by
    rw [hh, hs]
    exact chainFrom_spec _ c (c.length + 1) (by omega)
      (List.Chain'.imp (fun a b hab => hab.1) hch) hlast
  rw [hcf]
  refine ⟨hch, ?_, ?_⟩
  · intro h hhead
    exact hhp h (by rw [← hh, hhead])
  · intro t htail
    exact hlast t (by rw [← ht, htail])

/-- Witness for Claim C2 at a concrete list. -/
theorem dll_symmetric_linkage_witness :
    ((fun l : DoublyLinkedList Int =>
      List.Chain'
        (fun i j => (l.mem i).next = some j ∧ (l.mem j).prev = some i)
        (chainFrom (fun i => (l.mem i).next) l.head (l.size + 1)) ∧
      (∀ h, l.head = some h → (l.mem h).prev = none) ∧
      (∀ t, l.tail = some t → (l.mem t).next = none))
     (((DoublyLinkedList.empty (α := Int)).append 1).append 2)) :=
  dll_symmetric_linkage _
    (DoublyLinkedList.Reachable.append _ 2
      (DoublyLinkedList.Reachable.append _ 1 DoublyLinkedList.Reachable.empty))

/-- Claim C8: for every SinglyLinkedList and DoublyLinkedList state reachable
by any sequence of public operations, the structural invariant holds:
`size = 0` iff `head` and `tail` are both null; `size = 1` implies
`head = tail`; and traversing from `head` following `next` links visits
exactly `size` nodes and terminates at the tail. -/
theorem list_structural_invariant {α : Type} [Inhabited α] :
    (∀ l : SinglyLinkedList α, l.Reachable →
      (l.size = 0 ↔ l.head = none ∧ l.tail = none) ∧
      (l.size = 1 → l.head = l.tail) ∧
      (chainFrom (fun i => (l.mem i).next) l.head (l.size + 1)).length =
        l.size ∧
      (chainFrom (fun i => (l.mem i).next) l.head (l.size + 1)).getLast? =
        l.tail) ∧
    (∀ d : DoublyLinkedList α, d.Reachable →
      (d.size = 0 ↔ d.head = none ∧ d.tail = none) ∧
      (d.size = 1 → d.head = d.tail) ∧
      (chainFrom (fun i => (d.mem i).next) d.head (d.size + 1)).length =
        d.size ∧
      (chainFrom (fun i => (d.mem i).next) d.head (d.size + 1)).getLast? =
        d.tail) := by
  constructor
  · intro l hl
    obtain ⟨c, hb, hnd, hh, ht, hs, hch, hlast⟩ :=
      SinglyLinkedList.sll_reachable_wf hl
    have hcf : chainFrom (fun i => (l.mem i).next) l.head (l.size + 1) = c := by
      rw [hh, hs]
      exact chainFrom_spec _ c (c.length + 1) (by omega) hch hlast
    refine ⟨?_, ?_, ?_, ?_⟩
    · constructor
      · intro h0
        rw [h0] at hs
        have hc : c = [] := List.length_eq_zero.mp hs.symm
        subst hc
        exact ⟨by simpa using hh, by simpa using ht⟩
      · intro ⟨hhn, _⟩
        rw [hhn] at hh
        have hc : c = [] := List.head?_eq_none_iff.mp hh.symm
        subst hc
        simpa using hs
    · intro h1
      rw [h1] at hs
      obtain ⟨a, hc⟩ := List.length_eq_one.mp hs.symm
      subst hc
      rw [hh, ht]
      rfl
    · rw [hcf, hs]
    · rw [hcf, ht]
  · intro d hd
    obtain ⟨c, hb, hnd, hh, ht, hs, hch, hhp, hlast⟩ :=
      DoublyLinkedList.dll_reachable_wf hd
    have hcf : chainFrom (fun i => (d.mem i).next) d.head (d.size + 1) = c := by
      rw [hh, hs]
      exact chainFrom_spec _ c (c.length + 1) (by omega)
        (List.Chain'.imp (fun a b hab => hab.1) hch) hlast
    refine ⟨?_, ?_, ?_, ?_⟩
    · constructor
      · intro h0
        rw [h0] at hs
        have hc : c = [] := List.length_eq_zero.mp hs.symm
        subst hc
        exact ⟨by simpa using hh, by simpa using ht⟩
      · intro ⟨hhn, _⟩
        rw [hhn] at hh
        have hc : c = [] := List.head?_eq_none_iff.mp hh.symm
        subst hc
        simpa using hs
    · intro h1
      rw [h1] at hs
      obtain ⟨a, hc⟩ := List.length_eq_one.mp hs.symm
      subst hc
      rw [hh, ht]
      rfl
    · rw [hcf, hs]
    · rw [hcf, ht]

/-- Witness for Claim C8 at concrete lists. -/
theorem list_structural_invariant_witness :
    ((SinglyLinkedList.empty (α := Int)).append 5).head =
      ((SinglyLinkedList.empty (α := Int)).append 5).tail ∧
    (chainFrom
      (fun i => (((DoublyLinkedList.empty (α := Int)).prepend 7).mem i).next)
      ((DoublyLinkedList.empty (α := Int)).prepend 7).head
      (((DoublyLinkedList.empty (α := Int)).prepend 7).size + 1)).length =
      ((DoublyLinkedList.empty (α := Int)).prepend 7).size :=
  ⟨(list_structural_invariant.1 _ (SinglyLinkedList.Reachable.append _ 5
      SinglyLinkedList.Reachable.empty)).2.1 rfl,
   (list_structural_invariant.2 _ (DoublyLinkedList.Reachable.prepend _ 7
      DoublyLinkedList.Reachable.empty)).2.2.1⟩

/-- Claim C7: `pop_front` on an empty SinglyLinkedList (size 0) fails with the
EmptyContainer error kind and leaves the list's observable state unchanged
(size stays 0, head and tail stay null); likewise the failed pop operations
on an empty DoublyLinkedList leave the structure's observable state
unchanged. -/
theorem pop_front_empty_error {α : Type} [Inhabited α] :
    (∀ l : SinglyLinkedList α, l.Reachable → l.size = 0 →
      l.pop_front = (Except.error DsError.emptyContainer, l) ∧
      l.head = none ∧ l.tail = none) ∧
    (∀ d : DoublyLinkedList α, d.Reachable → d.size = 0 →
      d.pop_front = (Except.error DsError.emptyContainer, d) ∧
      d.pop_back = (Except.error DsError.emptyContainer, d)) := by
  constructor
  · intro l hl hsz
    obtain ⟨c, hb, hnd, hh, ht, hs, hch, hlast⟩ :=
      SinglyLinkedList.sll_reachable_wf hl
    rw [hsz] at hs
    have hc : c = [] := List.length_eq_zero.mp hs.symm
    subst hc
    have hhn : l.head = none := by simpa using hh
    have htn : l.tail = none := by simpa using ht
    refine ⟨?_, hhn, htn⟩
    simp [SinglyLinkedList.pop_front, hhn]
  · intro d hd hsz
    obtain ⟨c, hb, hnd, hh, ht, hs, hch, hhp, hlast⟩ :=
      DoublyLinkedList.dll_reachable_wf hd
    rw [hsz] at hs
    have hc : c = [] := List.length_eq_zero.mp hs.symm
    subst hc
    have hhn : d.head = none := by simpa using hh
    have htn : d.tail = none := by simpa using ht
    constructor
    · simp [DoublyLinkedList.pop_front, hhn]
    · simp [DoublyLinkedList.pop_back, htn]

/-- Witness for Claim C7 at the empty lists. -/
theorem pop_front_empty_error_witness :
    (SinglyLinkedList.empty (α := Int)).pop_front =
      (Except.error DsError.emptyContainer, SinglyLinkedList.empty) ∧
    (DoublyLinkedList.empty (α := Int)).pop_back =
      (Except.error DsError.emptyContainer, DoublyLinkedList.empty) :=
  ⟨(pop_front_empty_error.1 _ SinglyLinkedList.Reachable.empty rfl).1,
   (pop_front_empty_error.2 _ DoublyLinkedList.Reachable.empty rfl).2⟩

end DSCollections
